import Mathlib

/-!
# Shallow embedding of `src/homework3/quiz3/xs.c`

The program implements a compact mutable byte-string value (`xs`): a 16-byte
union that is either an inline string (up to 15 bytes plus a packed final
byte holding the `space_left` nibble and the `is_ptr` / `is_large_string`
flags), or a heap-backed string (`ptr`, a 54-bit `size` bitfield and a 6-bit
`capacity` bitfield sharing one machine word).

The embedding models the value cell, the heap (a store of malloc'd buffers,
each with a reference-count word and a byte array), and every operation of
the source, byte for byte.  Two physical facts of the union layout (checked
against the declared bitfield layout on x86-64 gcc) are built in:

* the inline `space_left` nibble occupies bits 2..5 of the heap view's 6-bit
  `capacity` field.  In particular `xs_literal_empty()` (which sets
  `space_left = 15` and zeroes the rest) makes the `capacity` field read
  `0b111100 = 60`, and clearing `is_ptr` on a heap value makes `space_left`
  read 15, i.e. `xs_size` read 0;
* byte 15 of the inline `data` array is that packed nibble-and-flags byte,
  so reading or writing `data[15]` reads or writes `space_left` and the
  flags.

C size_t arithmetic is modelled mod 2^64, the 54-bit `size` bitfield store
mod 2^54, the 4-bit `space_left` store mod 16, the 6-bit `capacity` store
mod 64.  `malloc` is idealized as always succeeding; fresh buffer bytes are
a fixed junk byte (uninitialized memory).  Reads or writes outside the
extent of the addressed object (and frees or dereferences of dead buffers)
have no C semantics and make the operation return `none`.
-/

namespace XsC

/-- A byte, as stored in memory. -/
abbrev Byte := Fin 256

/-- The junk byte filling freshly malloc'd (uninitialized) memory. -/
def junkByte : Byte := ⟨205, by norm_num⟩

/-- A heap buffer.  For a Large allocation the malloc'd block is
`extent + 4` bytes: a 4-byte reference-count word followed by `extent` data
bytes; `xs_data` points past the count word, so `mem` indexes the data
bytes and `refcnt` models the count word.  For a Medium allocation the
block is `extent` bytes and the count word is never accessed. -/
structure Buf where
  refcnt : Int
  mem : Nat → Byte
  extent : Nat

/-- The heap: buffer ids to live buffers, plus the next fresh id. -/
structure Store where
  bufs : Nat → Option Buf
  next : Nat

/-- The store with no live buffers. -/
def emptyStore : Store := { bufs := fun _ => none, next := 0 }

/-- Update buffer `i`. -/
def Store.set (σ : Store) (i : Nat) (b : Buf) : Store :=
  { σ with bufs := fun n => if n = i then some b else σ.bufs n }

/-- `free(ptr)`: drop buffer `i`. -/
def Store.del (σ : Store) (i : Nat) : Store :=
  { σ with bufs := fun n => if n = i then none else σ.bufs n }

/-- `malloc`: allocate a fresh buffer, returning its id. -/
def Store.alloc (σ : Store) (b : Buf) : Store × Nat :=
  ({ bufs := fun n => if n = σ.next then some b else σ.bufs n,
     next := σ.next + 1 }, σ.next)

/-- The `xs` value cell.  `capBits` is the 6-bit `capacity` bitfield (whose
bits 2..5 are physically the inline `space_left` nibble); `sizeField` is
the 54-bit `size` bitfield; `data` holds the inline bytes 0..14 (byte 15 is
the packed nibble-and-flags byte, represented by the other fields).  `ptr`
and `data` occupy the same storage in C but no code path reads one after
writing the other without an intervening reset, so they are kept apart. -/
structure Xs where
  isPtr : Bool
  isLarge : Bool
  capBits : Nat
  sizeField : Nat
  ptr : Nat
  data : Nat → Byte

attribute [ext] Buf Store Xs

/-- The inline `space_left` nibble: bits 2..5 of the `capacity` field. -/
def spaceLeft (x : Xs) : Nat := x.capBits / 4 % 16

/-- Store `v` into the 4-bit `space_left` field (bits 2..5 of `capBits`). -/
def setSpaceLeft (x : Xs) (v : Nat) : Xs :=
  { x with capBits := x.capBits % 4 + 4 * (v % 16) }

/-- `xs_is_ptr`. -/
def xs_is_ptr (x : Xs) : Bool := x.isPtr

/-- `xs_is_large_string`. -/
def xs_is_large_string (x : Xs) : Bool := x.isLarge

/-- `xs_size`: the heap `size` field, or `STACK_SIZE - space_left`. -/
def xs_size (x : Xs) : Nat :=
  if x.isPtr then x.sizeField else 15 - spaceLeft x

/-- `xs_set_size`.  The inline branch computes `15 - s` in size_t
arithmetic (mod 2^64) and stores it into the 4-bit field (mod 16); the heap
branch stores into the 54-bit field (mod 2^54). -/
def xs_set_size (x : Xs) (s : Nat) : Xs :=
  if x.isPtr then { x with sizeField := s % 2 ^ 54 }
  else setSpaceLeft x ((15 + 2 ^ 64 - s % 2 ^ 64) % 2 ^ 64)

/-- `xs_capacity`: `(1UL << capacity) - 1` for heap values, 15 inline. -/
def xs_capacity (x : Xs) : Nat :=
  if x.isPtr then 2 ^ x.capBits - 1 else 15

/-- Byte 15 of the inline cell: `space_left` in bits 0..3, `is_ptr` bit 4,
`is_large_string` bit 5 (`flag2`/`flag3` are never set). -/
def packedByte15 (x : Xs) : Byte :=
  ⟨spaceLeft x % 16 + 16 * (cond x.isPtr 1 0) + 32 * (cond x.isLarge 1 0), by
    have h : spaceLeft x % 16 < 16 := Nat.mod_lt _ (by norm_num)
    rcases x.isPtr <;> rcases x.isLarge <;> simp <;> omega⟩

/-- Read byte `i` of the inline cell (callers bound `i` by 16). -/
def inlRead (x : Xs) (i : Nat) : Byte :=
  if i = 15 then packedByte15 x else x.data i

/-- Write byte `i` of the inline cell.  A write at index 15 stores into the
packed nibble-and-flags byte. -/
def inlWriteByte (x : Xs) (i : Nat) (b : Byte) : Xs :=
  if i = 15 then
    { x with capBits := x.capBits % 4 + 4 * (b.val % 16),
             isPtr := decide (b.val / 16 % 2 = 1),
             isLarge := decide (b.val / 32 % 2 = 1) }
  else { x with data := fun j => if j = i then b else x.data j }

/-- `xs_literal_empty()`: all data bytes 0, `space_left = 15`, flags 0.
With `space_left` sitting in bits 2..5 of the `capacity` field, the
`capacity` field of the empty value reads `60`. -/
def xs_literal_empty : Xs :=
  { isPtr := false, isLarge := false, capBits := 60, sizeField := 0,
    ptr := 0, data := fun _ => 0 }

/-- `xs_newempty`. -/
def xs_newempty (_x : Xs) : Xs := xs_literal_empty

/-- `xs_get_refcnt`: 0 unless the value is a large string; for a large
string it dereferences the count word (undefined if the buffer is dead). -/
def xs_get_refcnt (σ : Store) (x : Xs) : Option Int :=
  if !x.isLarge then some 0
  else match σ.bufs x.ptr with
    | some b => some b.refcnt
    | none => none

/-- `xs_set_refcnt`: unconditionally store through the pointer. -/
def xs_set_refcnt (σ : Store) (x : Xs) (v : Int) : Option Store :=
  match σ.bufs x.ptr with
  | some b => some (σ.set x.ptr { b with refcnt := v })
  | none => none

/-- `xs_inc_refcnt`: increment the count word if the string is large. -/
def xs_inc_refcnt (σ : Store) (x : Xs) : Option Store :=
  if !x.isLarge then some σ
  else match σ.bufs x.ptr with
    | some b => some (σ.set x.ptr { b with refcnt := b.refcnt + 1 })
    | none => none

/-- `xs_dec_refcnt`: 0 for non-large values (no dereference), else the
decremented count, written back. -/
def xs_dec_refcnt (σ : Store) (x : Xs) : Option (Int × Store) :=
  if !x.isLarge then some (0, σ)
  else match σ.bufs x.ptr with
    | some b => some (b.refcnt - 1, σ.set x.ptr { b with refcnt := b.refcnt - 1 })
    | none => none

/-- `xs_free`: `if (xs_is_ptr(x) && xs_dec_refcnt(x) <= 0) free(x->ptr);`
then reset the cell to the empty literal.  The `&&` short-circuits, so the
count is only touched when `is_ptr` is set. -/
def xs_free (σ : Store) (x : Xs) : Option (Store × Xs) :=
  if x.isPtr then
    match xs_dec_refcnt σ x with
    | some (r, σ₁) =>
      if r ≤ 0 then
        match σ₁.bufs x.ptr with
        | some _ => some (σ₁.del x.ptr, xs_literal_empty)
        | none => none
      else some (σ₁, xs_literal_empty)
    | none => none
  else some (σ, xs_literal_empty)

/-- `ilog2` as the source computes it: `32 - __builtin_clz(n) - 1` on the
`uint32_t` truncation of the argument.  `__builtin_clz(0)` is documented by
gcc as undefined; `ilog2UB` keeps that case explicit. -/
def ilog2UB (n : Nat) : Option Int :=
  if n % 2 ^ 32 = 0 then none else some (Nat.log2 (n % 2 ^ 32) : Int)

/-- Total version of `ilog2`; the undefined `clz(0)` case is given the
arbitrary value `-1`.  Every caller stores the result into the `capacity`
bitfield immediately before `xs_free` resets the whole cell, so the value
chosen for the undefined case never influences any later state. -/
def ilog2 (n : Nat) : Int := (ilog2UB n).getD (-1)

/-- `xs_allocate`.  The computed exponent is stored into the 6-bit
`capacity` field, after which `xs_free` resets the cell to the empty
literal -- whose `capacity` field reads 60.  The subsequent mallocs
therefore use `1UL << 60` (plus 4 for a large string), and the returned
value's `capacity` field is 60, not the computed exponent. -/
def xs_allocate (σ : Store) (x : Xs) (len : Nat) : Option (Store × Xs) :=
  let x₁ : Xs := { x with capBits := ((ilog2 len + 1) % 64).toNat }
  match xs_free σ x₁ with
  | none => none
  | some (σ₁, x₂) =>
    if len ≥ 256 then
      let x₃ := { x₂ with isLarge := true }
      let (σ₂, id) := σ₁.alloc ⟨0, fun _ => junkByte, 2 ^ x₃.capBits⟩
      let x₄ := { x₃ with ptr := id, isPtr := true }
      match xs_set_refcnt σ₂ x₄ 1 with
      | some σ₃ => some (σ₃, x₄)
      | none => none
    else if len > 15 then
      let (σ₂, id) := σ₁.alloc ⟨0, fun _ => junkByte, 2 ^ x₂.capBits⟩
      some (σ₂, { x₂ with ptr := id, isPtr := true })
    else some (σ₁, x₂)

/-- The extent in bytes of the object `xs_data(x)` points into: 16 for the
inline cell, the data-byte count of the heap buffer otherwise (`none` if
the buffer is dead). -/
def dataExtent (σ : Store) (x : Xs) : Option Nat :=
  if x.isPtr then (σ.bufs x.ptr).map Buf.extent else some 16

/-- Read the byte at offset `i` from `xs_data(x)` (callers bound `i` by the
extent; a read from a dead buffer yields 0 but callers guard liveness). -/
def peek (σ : Store) (x : Xs) (i : Nat) : Byte :=
  if x.isPtr then
    match σ.bufs x.ptr with
    | some b => b.mem i
    | none => 0
  else inlRead x i

/-- The observed content of a value: its first `xs_size` data bytes. -/
def content (σ : Store) (x : Xs) : List Byte :=
  (List.range (xs_size x)).map (peek σ x)

/-- Overlay the bytes of `l` at offset `off` of a buffer (`memcpy`). -/
def bufWriteList (b : Buf) (off : Nat) (l : List Byte) : Buf :=
  { b with mem := fun j =>
      if off ≤ j ∧ j < off + l.length then l.getD (j - off) 0 else b.mem j }

/-- `memcpy(xs_data(x) + off, l, l.length)`: bounds-checked against the
extent of the addressed object; an inline write covering byte 15 stores its
last-covered byte into the packed nibble-and-flags byte. -/
def writeList (σ : Store) (x : Xs) (off : Nat) (l : List Byte) :
    Option (Store × Xs) :=
  if x.isPtr then
    match σ.bufs x.ptr with
    | some b =>
      if off + l.length ≤ b.extent then some (σ.set x.ptr (bufWriteList b off l), x)
      else none
    | none => none
  else
    if off + l.length ≤ 16 then
      let x₁ := { x with data := fun j =>
        if off ≤ j ∧ j < off + l.length then l.getD (j - off) 0 else x.data j }
      if off ≤ 15 ∧ 15 < off + l.length then
        some (σ, inlWriteByte x₁ 15 (l.getD (15 - off) 0))
      else some (σ, x₁)
    else none

/-- Read `n` bytes starting at offset `off` of `xs_data(x)` (a `memcpy`
source), bounds-checked. -/
def readList (σ : Store) (x : Xs) (off n : Nat) : Option (List Byte) :=
  match dataExtent σ x with
  | some e =>
    if off + n ≤ e then some ((List.range n).map (fun j => peek σ x (off + j)))
    else none
  | none => none

/-- `memmove(orig, orig + i, n)`: move `n` bytes to the front of the
object's data (callers bound `i + n` by the extent). -/
def memMoveFront (σ : Store) (x : Xs) (i n : Nat) : Store × Xs :=
  if x.isPtr then
    match σ.bufs x.ptr with
    | some b =>
      (σ.set x.ptr { b with mem := fun j => if j < n then b.mem (i + j) else b.mem j }, x)
    | none => (σ, x)
  else
    (σ, { x with data := fun j => if j < n then inlRead x (i + j) else x.data j })

/-- Write one byte at offset `i` of `xs_data(x)` (callers bound `i`). -/
def pokeByte (σ : Store) (x : Xs) (i : Nat) (b : Byte) : Store × Xs :=
  if x.isPtr then
    match σ.bufs x.ptr with
    | some bf =>
      (σ.set x.ptr { bf with mem := fun j => if j = i then b else bf.mem j }, x)
    | none => (σ, x)
  else (σ, inlWriteByte x i b)

/-- `xs_new`: measure the source, allocate, copy `len + 1` bytes (content
plus NUL terminator), set the size.  The source C string is modelled as
the list of its bytes before the terminator.  No length check of any kind
is performed against `MAX_STR_LEN`. -/
def xs_new (σ : Store) (x : Xs) (p : List Byte) : Option (Store × Xs) :=
  let len := p.length
  match xs_allocate σ x len with
  | none => none
  | some (σ₁, x₁) =>
    match writeList σ₁ x₁ 0 (p ++ [0]) with
    | none => none
    | some (σ₂, x₂) => some (σ₂, xs_set_size x₂ len)

/-- `xs_grow`.  A no-op when the capacity already covers `len`; otherwise
the content is backed up (the inline bytes, or the old heap pointer), the
cell is re-allocated, `memcpy(xs_data(x), backup, xs_size(x))` runs --
where `xs_size(x)` is read from the freshly reset cell and is 0 -- and the
old heap block, if any, is freed.  No code restores the old length. -/
def xs_grow (σ : Store) (x : Xs) (len : Nat) : Option (Store × Xs) :=
  if len ≤ xs_capacity x then some (σ, x)
  else if x.isPtr then
    match σ.bufs x.ptr with
    | none => none
    | some oldBuf =>
      let f := x.ptr
      let x₁ := { x with isPtr := false }
      match xs_allocate σ x₁ len with
      | none => none
      | some (σ₁, x₂) =>
        let n := xs_size x₂
        if n ≤ oldBuf.extent then
          match writeList σ₁ x₂ 0 ((List.range n).map oldBuf.mem) with
          | none => none
          | some (σ₂, x₃) =>
            match σ₂.bufs f with
            | some _ => some (σ₂.del f, x₃)
            | none => none
        else none
  else
    let backup : Nat → Byte := fun j => inlRead x j
    match xs_allocate σ x len with
    | none => none
    | some (σ₁, x₂) =>
      let n := xs_size x₂
      if n ≤ 16 then
        match writeList σ₁ x₂ 0 ((List.range n).map backup) with
        | none => none
        | some (σ₂, x₃) => some (σ₂, x₃)
      else none

/-- `xs_cpy`: free the destination, bitwise-copy the source cell, then
branch on `xs_size(src)` (not on the representation): at or above 256
increment the shared count; above 15 deep-copy into a fresh buffer (the
length field having been reset by `xs_allocate`, no code restores it);
otherwise keep the bitwise copy as is. -/
def xs_cpy (σ : Store) (dest src : Xs) : Option (Store × Xs) :=
  match xs_free σ dest with
  | none => none
  | some (σ₁, _) =>
    let d₁ := src
    let len := xs_size src
    if len ≥ 256 then
      match xs_inc_refcnt σ₁ src with
      | some σ₂ => some (σ₂, d₁)
      | none => none
    else if len > 15 then
      let d₂ := { d₁ with isPtr := false }
      match xs_allocate σ₁ d₂ len with
      | none => none
      | some (σ₂, d₃) =>
        match readList σ₂ src 0 (len + 1) with
        | none => none
        | some l =>
          match writeList σ₂ d₃ 0 l with
          | none => none
          | some (σ₃, d₄) => some (σ₃, d₄)
    else some (σ₁, d₁)

/-- `xs_cow_lazy_copy`.  When the shared count exceeds 1: save the data
pointer, decrement the count, clear `is_ptr` -- after which `xs_size(x)`
reads `15 - space_left` where `space_left` is bits 2..5 of the capacity
field -- and re-allocate for that size, then copy `x->size + 1` bytes from
the saved pointer (`x->size` read from the reset cell). -/
def xs_cow_lazy_copy (σ : Store) (x : Xs) : Option (Store × Xs × Bool) :=
  match xs_get_refcnt σ x with
  | none => none
  | some r =>
    if r ≤ 1 then some (σ, x, false)
    else
      match σ.bufs x.ptr with
      | none => none
      | some oldBuf =>
        match xs_dec_refcnt σ x with
        | none => none
        | some (_, σ₁) =>
          let x₁ := { x with isPtr := false }
          match xs_allocate σ₁ x₁ (xs_size x₁) with
          | none => none
          | some (σ₂, x₂) =>
            let n := x₂.sizeField + 1
            if n ≤ oldBuf.extent then
              match writeList σ₂ x₂ 0 ((List.range n).map oldBuf.mem) with
              | none => none
              | some (σ₃, x₃) => some (σ₃, x₃, true)
            else none

/-- `xs_concat`.  The three sizes and the capacity of the target are read
before `xs_cow_lazy_copy` runs; the data pointers after.  The in-place
branch shifts the old bytes right by `pres`, copies the prefix into the
head and the suffix (with its terminator byte) after the tail -- modelled
as one contiguous overlay of `pre ++ old ++ suf`, which writes the same
bytes -- then sets the size field or `space_left` depending on which
representation the target has at that point.  The spill branch grows an
empty temporary, fills it the same way, frees the target and adopts the
temporary, writing the size bitfield directly. -/
def xs_concat (σ : Store) (string preV sufV : Xs) : Option (Store × Xs) :=
  let pres := xs_size preV
  let sufs := xs_size sufV
  let size := xs_size string
  let capacity := xs_capacity string
  match xs_cow_lazy_copy σ string with
  | none => none
  | some (σ₁, s₁, _) =>
    match readList σ₁ preV 0 pres, readList σ₁ sufV 0 (sufs + 1) with
    | some preB, some sufB =>
      if size + pres + sufs ≤ capacity then
        match readList σ₁ s₁ 0 size with
        | none => none
        | some oldB =>
          match writeList σ₁ s₁ 0 (preB ++ oldB ++ sufB) with
          | none => none
          | some (σ₂, s₂) =>
            if s₂.isPtr then
              some (σ₂, { s₂ with sizeField := (size + pres + sufs) % 2 ^ 54 })
            else
              some (σ₂, setSpaceLeft s₂
                ((15 + 2 ^ 64 - (size + pres + sufs) % 2 ^ 64) % 2 ^ 64))
      else
        match xs_grow σ₁ xs_literal_empty (size + pres + sufs) with
        | none => none
        | some (σ₂, t₁) =>
          match readList σ₂ s₁ 0 size with
          | none => none
          | some oldB =>
            match writeList σ₂ t₁ 0 (preB ++ oldB ++ sufB) with
            | none => none
            | some (σ₃, t₂) =>
              match xs_free σ₃ s₁ with
              | none => none
              | some (σ₄, _) =>
                some (σ₄, { t₂ with sizeField := (size + pres + sufs) % 2 ^ 54 })
    | _, _ => none

/-- The forward trim scan
(`for (i = 0; i < slen; i++) if (!check_bit(dataptr[i])) break`),
as a recursion on the remaining count: `j` is the current index. -/
def leadScanAux (rd : Nat → Byte) (p : Byte → Bool) (j : Nat) : Nat → Nat
  | 0 => j
  | n + 1 => if p (rd j) then leadScanAux rd p (j + 1) n else j

/-- The forward trim scan from index 0 over `n` bytes. -/
def leadScan (rd : Nat → Byte) (p : Byte → Bool) (n : Nat) : Nat :=
  leadScanAux rd p 0 n

/-- The backward trim scan
(`for (; slen > 0; slen--) if (!check_bit(dataptr[slen - 1])) break`). -/
def backScan (rd : Nat → Byte) (p : Byte → Bool) : Nat → Nat
  | 0 => 0
  | m + 1 => if p (rd m) then backScan rd p m else m + 1

/-- The scan-and-bound core of `xs_trim`: the surviving range starts at
the forward scan's index `i`; `slen -= i` is size_t arithmetic on the
backward scan's result, so when every byte is accepted by the mask
(`m = 0 < i`) the new length wraps around 2^64; the `memmove` and the
terminator access must stay within the object's extent. -/
def trimCore (e slen : Nat) (rd : Nat → Byte) (mask : Byte → Bool) :
    Option (Nat × Nat) :=
  let i := leadScan rd mask slen
  let m := backScan rd mask slen
  let slen' := (m + 2 ^ 64 - i) % 2 ^ 64
  if i + slen' ≤ e ∧ slen' < e then some (i, slen') else none

/-- The part of `xs_trim` after the copy-on-write check: scans, move,
terminator write, size update. -/
def trimTail (σ₁ : Store) (x₁ : Xs) (eff : List Byte) : Option (Store × Xs) :=
  match dataExtent σ₁ x₁ with
  | none => none
  | some e =>
    let slen := xs_size x₁
    if slen ≤ e then
      match trimCore e slen (peek σ₁ x₁) (fun b => eff.contains b) with
      | none => none
      | some (i, slen') =>
        let (σ₂, x₂) := memMoveFront σ₁ x₁ i slen'
        let t := peek σ₂ x₂ slen'
        let (σ₃, x₃) := if t ≠ 0 then pokeByte σ₂ x₂ slen' 0 else (σ₂, x₂)
        some (σ₃, xs_set_size x₃ slen')
    else none

/-- `xs_trim`.  `trimset` is a C string; `strlen` and the `!trimset[0]`
test see its bytes before the first NUL.  After the copy-on-write check,
the scans find the surviving range (`trimCore`; when every byte is
trimmed the size_t length wraps and the `memmove` runs off the object --
no defined result).  Otherwise the surviving bytes move to the front, a
terminator is written at their end unless one is already there, and the
size is set (`trimTail`). -/
def xs_trim (σ : Store) (x : Xs) (trimset : List Byte) : Option (Store × Xs) :=
  let eff := trimset.takeWhile (fun b => b ≠ 0)
  if eff.isEmpty then some (σ, x)
  else
    match xs_cow_lazy_copy σ x with
    | none => none
    | some (σ₁, x₁, _) => trimTail σ₁ x₁ eff

/-- A store is coherent when ids at or past `next` are dead (so `malloc`
returns genuinely fresh blocks). -/
def StoreWF (σ : Store) : Prop := ∀ i, σ.next ≤ i → σ.bufs i = none

/-- The value does not share its buffer (its shared count, when it has
one, is at most 1), so the copy-on-write check performs no copy. -/
def unshared (σ : Store) (x : Xs) : Prop :=
  ∀ b, σ.bufs x.ptr = some b → x.isLarge = true → b.refcnt ≤ 1

/-- Well-formed value: the states the public operations produce.  A large
string is heap-backed; a heap pointer is live, its buffer has the 2^60
extent every allocation of this code requests, its capacity field reads
60 (see `xs_allocate`) and its size field fits the 54-bit bitfield; a live
large buffer's count covers its referents; the data byte at index
`xs_size` is the NUL terminator. -/
structure WF (σ : Store) (x : Xs) : Prop where
  flags : x.isLarge = true → x.isPtr = true
  live : x.isPtr = true → ∃ b, σ.bufs x.ptr = some b
  cap60 : x.isPtr = true → x.capBits = 60
  sizeOk : x.isPtr = true → x.sizeField < 2 ^ 54
  extentOk : ∀ b, σ.bufs x.ptr = some b → x.isPtr = true → b.extent = 2 ^ 60
  refOk : ∀ b, σ.bufs x.ptr = some b → x.isLarge = true → 1 ≤ b.refcnt
  term : peek σ x (xs_size x) = 0

/-- The capacity-covers-length invariant of the spec. -/
def lenInv (x : Xs) : Prop := xs_size x ≤ xs_capacity x

/-- Trimmed shape: what a successful `xs_trim` leaves behind --
well-formed, unshared, an inline capacity field that reads back
faithfully, and end bytes the effective trim set rejects. -/
def Trimmed (σ : Store) (x : Xs) (eff : List Byte) : Prop :=
  WF σ x ∧ unshared σ x ∧ (x.isPtr = false → x.capBits < 64) ∧
  (0 < xs_size x → eff.contains (peek σ x 0) = false ∧
    eff.contains (peek σ x (xs_size x - 1)) = false)

/-! ### Concrete fixtures used by the witnesses and counterexamples -/

/-- An inline value holding the bytes of `l` (for `l.length ≤ 15`), as
`xs_new` builds it from a short source. -/
def mkInline (l : List Byte) : Xs :=
  { isPtr := false, isLarge := false, capBits := 4 * ((15 - l.length) % 16),
    sizeField := 0, ptr := 0, data := fun j => l.getD j 0 }

/-- A heap buffer holding 300 content bytes `'a'` and a terminator,
with shared count 2 (two values reference it). -/
def sharedBuf : Buf :=
  { refcnt := 2, mem := fun j => if j = 300 then 0 else 97, extent := 2 ^ 60 }

/-- A store whose only live buffer is `sharedBuf` at id 0. -/
def sharedStore : Store :=
  { bufs := fun n => if n = 0 then some sharedBuf else none, next := 1 }

/-- A Large value of length 300 referencing `sharedBuf` (its shared count
is 2: some other value also references the buffer). -/
def sharedXs : Xs :=
  { isPtr := true, isLarge := true, capBits := 60, sizeField := 300,
    ptr := 0, data := fun _ => 0 }

/-- A heap buffer holding 300 content bytes `'a'` and a terminator, with
shared count 1: a single referent. -/
def soleBuf : Buf :=
  { refcnt := 1, mem := fun j => if j = 300 then 0 else 97, extent := 2 ^ 60 }

/-- A store whose only live buffer is `soleBuf` at id 0. -/
def soleStore : Store :=
  { bufs := fun n => if n = 0 then some soleBuf else none, next := 1 }

/-- A Large value of length 300 that is the sole referent of its buffer. -/
def soleXs : Xs :=
  { isPtr := true, isLarge := true, capBits := 60, sizeField := 300,
    ptr := 0, data := fun _ => 0 }

/-! ## Basic lemmas about the accessors -/

theorem spaceLeft_lt (x : Xs) : spaceLeft x < 16 :=
  Nat.mod_lt _ (by norm_num)

theorem xs_size_inline_le (x : Xs) (h : x.isPtr = false) : xs_size x ≤ 15 := by
  simp only [xs_size, h, Bool.false_eq_true, if_false]
  omega

theorem spaceLeft_setSpaceLeft (x : Xs) (v : Nat) :
    spaceLeft (setSpaceLeft x v) = v % 16 := by
  simp only [spaceLeft, setSpaceLeft]
  omega

theorem setSpaceLeft_isPtr (x : Xs) (v : Nat) : (setSpaceLeft x v).isPtr = x.isPtr := rfl

theorem setSpaceLeft_data (x : Xs) (v : Nat) : (setSpaceLeft x v).data = x.data := rfl

/-- Setting the size of an inline value to `s ≤ 15` makes `xs_size` read
`s` back: `(15 - s)` does not wrap and the nibble store is faithful. -/
theorem xs_size_set_size_inline (x : Xs) (h : x.isPtr = false) (s : Nat) (hs : s ≤ 15) :
    xs_size (xs_set_size x s) = s := by
  simp only [xs_set_size, h, if_neg, Bool.false_eq_true, ite_false]
  have h64 : s % 2 ^ 64 = s := Nat.mod_eq_of_lt (by omega)
  simp only [xs_size, setSpaceLeft_isPtr, h, Bool.false_eq_true, ite_false,
    spaceLeft_setSpaceLeft, h64]
  omega

theorem xs_size_set_size_heap (x : Xs) (h : x.isPtr = true) (s : Nat) :
    xs_size (xs_set_size x s) = s % 2 ^ 54 := by
  simp [xs_set_size, xs_size, h]

/-- The in-place size store of `xs_concat` on an inline cell, for totals
that fit: `15 - total` does not wrap. -/
theorem concat_inline_size (total : Nat) (h : total ≤ 15) :
    (15 + 2 ^ 64 - total % 2 ^ 64) % 2 ^ 64 % 16 = 15 - total := by
  have h64 : total % 2 ^ 64 = total := Nat.mod_eq_of_lt (by omega)
  rw [h64]
  omega

/-! ## Characterizing the operations under well-formedness -/

/-- A well-formed value has a live object of known extent covering its
content and terminator. -/
theorem dataExtent_of_WF (σ : Store) (x : Xs) (h : WF σ x) :
    ∃ e, dataExtent σ x = some e ∧ xs_size x + 1 ≤ e ∧
      (x.isPtr = true → e = 2 ^ 60) ∧ (x.isPtr = false → e = 16) := by
  cases hp : x.isPtr with
  | false =>
    refine ⟨16, by simp [dataExtent, hp], ?_, by simp [hp], fun _ => rfl⟩
    have := xs_size_inline_le x hp
    omega
  | true =>
    obtain ⟨b, hb⟩ := h.live hp
    refine ⟨2 ^ 60, by simp [dataExtent, hp, hb, h.extentOk b hb hp], ?_,
      fun _ => rfl, by simp [hp]⟩
    have h1 := h.sizeOk hp
    have h2 : xs_size x = x.sizeField := by simp [xs_size, hp]
    rw [h2]
    calc x.sizeField + 1 ≤ 2 ^ 54 := h1
      _ ≤ 2 ^ 60 := by norm_num

/-- On an unshared well-formed value the copy-on-write check does
nothing. -/
theorem cow_unshared (σ : Store) (x : Xs) (h : WF σ x) (hun : unshared σ x) :
    xs_cow_lazy_copy σ x = some (σ, x, false) := by
  cases hL : x.isLarge with
  | false => simp [xs_cow_lazy_copy, xs_get_refcnt, hL]
  | true =>
    obtain ⟨b, hb⟩ := h.live (h.flags hL)
    have hr : b.refcnt ≤ 1 := hun b hb hL
    simp [xs_cow_lazy_copy, xs_get_refcnt, hL, hb, hr]

/-- The copy-on-write path on a shared large value: the count is
decremented and the value collapses to an empty-sized inline cell holding
one copied byte -- `xs_size` is read after `is_ptr` was cleared, through
the re-aliased `space_left` bits, giving 0. -/
theorem cow_destroyed (σ : Store) (x : Xs) (b : Buf) (hL : x.isLarge = true)
    (hcap : x.capBits = 60) (hb : σ.bufs x.ptr = some b)
    (hr : 1 < b.refcnt) (hext : 1 ≤ b.extent) :
    ∃ x₁, xs_cow_lazy_copy σ x =
        some (σ.set x.ptr { b with refcnt := b.refcnt - 1 }, x₁, true) ∧
      x₁.isPtr = false ∧ x₁.isLarge = false ∧ x₁.capBits = 60 ∧ x₁.sizeField = 0 ∧
      x₁.data 0 = b.mem 0 ∧ (∀ j, 0 < j → x₁.data j = 0) := by
  obtain ⟨xp, xL, xc, xsf, xptr, xd⟩ := x
  simp only at hL hcap hb
  subst hL hcap
  simp only [xs_cow_lazy_copy, xs_get_refcnt, Bool.not_true, Bool.false_eq_true,
    if_false, hb]
  rw [if_neg (by omega)]
  simp only [xs_dec_refcnt, Bool.not_true, Bool.false_eq_true, if_false, hb]
  simp only [xs_allocate, xs_free, xs_size, spaceLeft, Bool.false_eq_true, if_false]
  norm_num
  simp only [writeList, Bool.false_eq_true, if_false, xs_literal_empty]
  norm_num
  refine ⟨_, ⟨hext, rfl⟩, rfl, rfl, rfl, rfl, ?_, ?_⟩
  · simp
  · intro j hj
    have : j ≠ 0 := by omega
    simp [this]

/-- The two outcomes of the copy-on-write check on a well-formed value:
nothing (count at most 1), or the destroyed inline cell with the count
decremented. -/
theorem cow_of_WF (σ : Store) (x : Xs) (σ₁ : Store) (x₁ : Xs) (c : Bool)
    (hWF : WF σ x) (h : xs_cow_lazy_copy σ x = some (σ₁, x₁, c)) :
    (σ₁ = σ ∧ x₁ = x ∧ unshared σ x) ∨
    (∃ b, σ.bufs x.ptr = some b ∧ 1 < b.refcnt ∧ x.isLarge = true ∧ x.isPtr = true ∧
      σ₁ = σ.set x.ptr { b with refcnt := b.refcnt - 1 } ∧
      x₁.isPtr = false ∧ x₁.isLarge = false ∧ x₁.capBits = 60 ∧ x₁.sizeField = 0 ∧
      x₁.data 0 = b.mem 0 ∧ (∀ j, 0 < j → x₁.data j = 0)) := by
  by_cases hL : x.isLarge = true
  · obtain ⟨b, hb⟩ := hWF.live (hWF.flags hL)
    by_cases hr : b.refcnt ≤ 1
    · have hun : unshared σ x := by
        intro b' hb' _
        rw [hb] at hb'
        cases hb'
        exact hr
      rw [cow_unshared σ x hWF hun] at h
      have h' := Option.some.inj h
      exact Or.inl ⟨(congrArg Prod.fst h').symm,
        (congrArg (fun p => p.2.1) h').symm, hun⟩
    · obtain ⟨x₁', hcow, hps⟩ := cow_destroyed σ x b hL (hWF.cap60 (hWF.flags hL)) hb
        (by omega) (by rw [hWF.extentOk b hb (hWF.flags hL)]; norm_num)
      rw [hcow] at h
      have h' := Option.some.inj h
      have hσ : σ.set x.ptr { b with refcnt := b.refcnt - 1 } = σ₁ := congrArg Prod.fst h'
      have hx : x₁' = x₁ := congrArg (fun p => p.2.1) h'
      right
      refine ⟨b, hb, by omega, hL, hWF.flags hL, hσ.symm, ?_⟩
      rw [← hx]
      exact hps
  · have hun : unshared σ x := fun b' _ hc => absurd hc hL
    rw [cow_unshared σ x hWF hun] at h
    have h' := Option.some.inj h
    exact Or.inl ⟨(congrArg Prod.fst h').symm,
      (congrArg (fun p => p.2.1) h').symm, hun⟩

theorem readList_some (σ : Store) (x : Xs) (off n e : Nat)
    (he : dataExtent σ x = some e) (h : off + n ≤ e) :
    readList σ x off n = some ((List.range n).map (fun j => peek σ x (off + j))) := by
  simp [readList, he, h]

/-- Reading a well-formed value's first `xs_size` bytes yields its
content. -/
theorem readList_content (σ : Store) (x : Xs) (h : WF σ x) :
    readList σ x 0 (xs_size x) = some (content σ x) := by
  obtain ⟨e, he, hle, _, _⟩ := dataExtent_of_WF σ x h
  rw [readList_some σ x 0 (xs_size x) e he (by omega)]
  simp [content]

/-- Reading one byte past the content picks up the terminator. -/
theorem readList_content_term (σ : Store) (x : Xs) (h : WF σ x) :
    readList σ x 0 (xs_size x + 1) = some (content σ x ++ [0]) := by
  obtain ⟨e, he, hle, _, _⟩ := dataExtent_of_WF σ x h
  rw [readList_some σ x 0 (xs_size x + 1) e he (by omega)]
  rw [List.range_succ, List.map_append]
  simp [content, h.term]

/-- Turning pointwise agreement with a list into a `take`. -/
theorem range_map_eq_take (f : Nat → Byte) (l : List Byte) (n : Nat)
    (h : n ≤ l.length) (hf : ∀ j, j < n → f j = l.getD j 0) :
    (List.range n).map f = l.take n := by
  apply List.ext_getElem
  · simp [Nat.min_eq_left h]
  · intro i h1 h2
    have hi : i < n := by simpa using h1
    have hil : i < l.length := by omega
    simp only [List.getElem_map, List.getElem_range, List.getElem_take]
    rw [hf i hi, List.getD_eq_getElem l 0 hil]

/-! ## Scan lemmas -/

theorem leadScanAux_ge (rd : Nat → Byte) (p : Byte → Bool) :
    ∀ n j, j ≤ leadScanAux rd p j n := by
  intro n
  induction n with
  | zero => intro j; exact Nat.le_refl _
  | succ n ih =>
    intro j
    rw [leadScanAux]
    by_cases h : p (rd j) = true
    · rw [if_pos h]
      exact Nat.le_trans (Nat.le_succ j) (ih (j + 1))
    · rw [if_neg h]

theorem leadScanAux_le (rd : Nat → Byte) (p : Byte → Bool) :
    ∀ n j, leadScanAux rd p j n ≤ j + n := by
  intro n
  induction n with
  | zero => intro j; exact Nat.le_refl _
  | succ n ih =>
    intro j
    rw [leadScanAux]
    by_cases h : p (rd j) = true
    · rw [if_pos h]
      have := ih (j + 1)
      omega
    · rw [if_neg h]
      omega

theorem leadScanAux_accept (rd : Nat → Byte) (p : Byte → Bool) :
    ∀ n j k, j ≤ k → k < leadScanAux rd p j n → p (rd k) = true := by
  intro n
  induction n with
  | zero => intro j k h1 h2; rw [leadScanAux] at h2; omega
  | succ n ih =>
    intro j k h1 h2
    rw [leadScanAux] at h2
    by_cases h : p (rd j) = true
    · rw [if_pos h] at h2
      rcases Nat.eq_or_lt_of_le h1 with rfl | hlt
      · exact h
      · exact ih (j + 1) k hlt h2
    · rw [if_neg h] at h2
      omega

theorem leadScanAux_stop (rd : Nat → Byte) (p : Byte → Bool) :
    ∀ n j, leadScanAux rd p j n < j + n → p (rd (leadScanAux rd p j n)) = false := by
  intro n
  induction n with
  | zero => intro j h; rw [leadScanAux] at h ⊢; omega
  | succ n ih =>
    intro j h
    rw [leadScanAux] at h ⊢
    by_cases hp : p (rd j) = true
    · rw [if_pos hp] at h ⊢
      exact ih (j + 1) (by omega)
    · rw [if_neg hp] at h ⊢
      exact Bool.eq_false_iff.mpr hp

theorem leadScan_le (rd : Nat → Byte) (p : Byte → Bool) (n : Nat) :
    leadScan rd p n ≤ n := by
  have := leadScanAux_le rd p n 0
  unfold leadScan
  omega

theorem leadScan_accept (rd : Nat → Byte) (p : Byte → Bool) (n k : Nat)
    (h : k < leadScan rd p n) : p (rd k) = true :=
  leadScanAux_accept rd p n 0 k (Nat.zero_le _) h

theorem leadScan_stop (rd : Nat → Byte) (p : Byte → Bool) (n : Nat)
    (h : leadScan rd p n < n) : p (rd (leadScan rd p n)) = false :=
  leadScanAux_stop rd p n 0 (by unfold leadScan at h; omega)

/-- A rejected byte bounds the forward scan. -/
theorem leadScan_le_of_reject (rd : Nat → Byte) (p : Byte → Bool) (n k : Nat)
    (hk : p (rd k) = false) : leadScan rd p n ≤ k := by
  by_contra h
  have := leadScan_accept rd p n k (by omega)
  rw [this] at hk
  cases hk

/-- The head rejected: the forward scan stops at 0. -/
theorem leadScan_zero (rd : Nat → Byte) (p : Byte → Bool) (n : Nat)
    (h : p (rd 0) = false) : leadScan rd p n = 0 :=
  Nat.le_zero.mp (leadScan_le_of_reject rd p n 0 h)

theorem backScan_le (rd : Nat → Byte) (p : Byte → Bool) :
    ∀ n, backScan rd p n ≤ n := by
  intro n
  induction n with
  | zero => exact Nat.le_refl _
  | succ n ih =>
    rw [backScan]
    by_cases h : p (rd n) = true
    · rw [if_pos h]
      exact Nat.le_trans ih (Nat.le_succ n)
    · rw [if_neg h]

theorem backScan_accept (rd : Nat → Byte) (p : Byte → Bool) :
    ∀ n k, backScan rd p n ≤ k → k < n → p (rd k) = true := by
  intro n
  induction n with
  | zero => intro k h1 h2; omega
  | succ n ih =>
    intro k h1 h2
    rw [backScan] at h1
    by_cases h : p (rd n) = true
    · rw [if_pos h] at h1
      rcases Nat.lt_succ_iff_lt_or_eq.mp h2 with hlt | rfl
      · exact ih k h1 hlt
      · exact h
    · rw [if_neg h] at h1
      omega

theorem backScan_stop (rd : Nat → Byte) (p : Byte → Bool) :
    ∀ n, 0 < backScan rd p n → p (rd (backScan rd p n - 1)) = false := by
  intro n
  induction n with
  | zero => intro h; rw [backScan] at h; omega
  | succ n ih =>
    intro h
    rw [backScan] at h ⊢
    by_cases hp : p (rd n) = true
    · rw [if_pos hp] at h ⊢
      exact ih h
    · rw [if_neg hp] at h ⊢
      simpa using Bool.eq_false_iff.mpr hp

/-- Scanning a range whose every byte it accepts, the backward scan keeps
what the rejected byte protects: a rejected byte below `n` bounds it from
below. -/
theorem backScan_gt_of_reject (rd : Nat → Byte) (p : Byte → Bool) (n k : Nat)
    (h2 : k < n) (hk : p (rd k) = false) : k < backScan rd p n := by
  by_contra h
  have := backScan_accept rd p n k (by omega) h2
  rw [this] at hk
  cases hk

/-- The last byte rejected: the backward scan keeps everything. -/
theorem backScan_all (rd : Nat → Byte) (p : Byte → Bool) (n : Nat)
    (h : 0 < n) (hl : p (rd (n - 1)) = false) : backScan rd p n = n := by
  have h1 := backScan_gt_of_reject rd p n (n - 1) (by omega) hl
  have h2 := backScan_le rd p n
  omega

/-- `trimCore` under the extents this program allocates: a `some` result
is the scan pair, the forward scan did not pass the backward scan, and the
accesses are in bounds. -/
theorem trimCore_some (e slen : Nat) (rd : Nat → Byte) (mask : Byte → Bool)
    (i s' : Nat) (he : e ≤ 2 ^ 60) (hslen : slen ≤ e)
    (h : trimCore e slen rd mask = some (i, s')) :
    i = leadScan rd mask slen ∧ i + s' = backScan rd mask slen ∧
      i + s' ≤ e ∧ s' < e ∧ s' ≤ slen := by
  have hi := leadScan_le rd mask slen
  have hm := backScan_le rd mask slen
  simp only [trimCore] at h
  by_cases hc : leadScan rd mask slen + (backScan rd mask slen + 2 ^ 64 -
      leadScan rd mask slen) % 2 ^ 64 ≤ e ∧
      (backScan rd mask slen + 2 ^ 64 - leadScan rd mask slen) % 2 ^ 64 < e
  · rw [if_pos hc] at h
    have h' := Option.some.inj h
    have h1 : leadScan rd mask slen = i := congrArg Prod.fst h'
    have h2 : (backScan rd mask slen + 2 ^ 64 - leadScan rd mask slen) % 2 ^ 64 = s' :=
      congrArg Prod.snd h'
    obtain ⟨hc1, hc2⟩ := hc
    refine ⟨h1.symm, ?_, by omega, by omega, ?_⟩ <;> omega
  · rw [if_neg hc] at h
    cases h

theorem Store.set_self (σ : Store) (i : Nat) (b : Buf) :
    (σ.set i b).bufs i = some b := by simp [Store.set]

theorem Store.set_other (σ : Store) (i : Nat) (b : Buf) (j : Nat) (h : j ≠ i) :
    (σ.set i b).bufs j = σ.bufs j := by simp [Store.set, h]

theorem bufWriteList_mem (b : Buf) (off : Nat) (l : List Byte) (j : Nat) :
    (bufWriteList b off l).mem j =
      if off ≤ j ∧ j < off + l.length then l.getD (j - off) 0 else b.mem j := rfl

theorem bufWriteList_extent (b : Buf) (off : Nat) (l : List Byte) :
    (bufWriteList b off l).extent = b.extent := rfl

theorem bufWriteList_refcnt (b : Buf) (off : Nat) (l : List Byte) :
    (bufWriteList b off l).refcnt = b.refcnt := rfl

theorem content_length (σ : Store) (x : Xs) : (content σ x).length = xs_size x := by
  simp [content]

/-- `writeList` on a live heap object. -/
theorem writeList_heap (σ : Store) (x : Xs) (l : List Byte) (b : Buf)
    (hp : x.isPtr = true) (hb : σ.bufs x.ptr = some b) (hlen : l.length ≤ b.extent) :
    writeList σ x 0 l = some (σ.set x.ptr (bufWriteList b 0 l), x) := by
  simp [writeList, hp, hb, hlen]

/-- Content of a heap value over a buffer agreeing with `l`. -/
theorem content_heap_take (σ' : Store) (y : Xs) (l : List Byte) (bb : Buf)
    (hp : y.isPtr = true) (hb : σ'.bufs y.ptr = some bb)
    (hn : xs_size y ≤ l.length)
    (hmem : ∀ j, j < xs_size y → bb.mem j = l.getD j 0) :
    content σ' y = l.take (xs_size y) := by
  apply range_map_eq_take _ _ _ hn
  intro j hj
  simp only [peek, hp, hb, if_pos rfl]
  exact hmem j hj

/-- Content of an inline value whose data bytes agree with `l`. -/
theorem content_inline_take (σ' : Store) (y : Xs) (l : List Byte)
    (hp : y.isPtr = false) (hn : xs_size y ≤ 15) (hnl : xs_size y ≤ l.length)
    (hmem : ∀ j, j < xs_size y → y.data j = l.getD j 0) :
    content σ' y = l.take (xs_size y) := by
  apply range_map_eq_take _ _ _ hnl
  intro j hj
  have hj15 : j ≠ 15 := by omega
  simp only [peek, hp, Bool.false_eq_true, if_false, inlRead, hj15, ite_false]
  exact hmem j hj

/-- Splitting the overlay list of `xs_concat` at the total length. -/
theorem concat_take (A B C : List Byte) :
    (A ++ B ++ (C ++ [0])).take (A.length + B.length + C.length) = A ++ B ++ C := by
  have h : A ++ B ++ (C ++ [0]) = (A ++ B ++ C) ++ [0] := by
    simp [List.append_assoc]
  rw [h]
  apply List.take_left'
  simp
  omega

theorem Store.set_eq_self (σ : Store) (i : Nat) (b : Buf) (h : σ.bufs i = some b) :
    σ.set i b = σ := by
  ext1
  · funext n
    by_cases hn : n = i
    · subst hn
      simp [Store.set, h.symm]
    · simp [Store.set, hn]
  · rfl

/-- Moving zero-offset: `memmove(orig, orig, n)` changes nothing. -/
theorem memMoveFront_zero (σ : Store) (x : Xs) (n : Nat)
    (hlive : x.isPtr = true → ∃ b, σ.bufs x.ptr = some b)
    (hn : x.isPtr = false → n ≤ 15) :
    memMoveFront σ x 0 n = (σ, x) := by
  cases hp : x.isPtr with
  | true =>
    obtain ⟨b, hb⟩ := hlive hp
    simp only [memMoveFront, hp, if_true, hb]
    have hmem : (fun j => if j < n then b.mem (0 + j) else b.mem j) = b.mem := by
      funext j
      rw [Nat.zero_add, ite_self]
    rw [hmem]
    have : { b with mem := b.mem } = b := rfl
    rw [this, Store.set_eq_self σ x.ptr b hb]
  | false =>
    simp only [memMoveFront, hp, Bool.false_eq_true, if_false]
    have hdata : (fun j => if j < n then inlRead x (0 + j) else x.data j) = x.data := by
      funext j
      by_cases hj : j < n
      · rw [if_pos hj, Nat.zero_add, inlRead, if_neg (by have := hn hp; omega)]
      · rw [if_neg hj]
    rw [hdata]
    refine congrArg (fun y => (σ, y)) ?_
    ext <;> simp [hp]

/-- Setting a value's size to its own size is the identity, as long as the
heap size field fits its 54 bits and the inline capacity field fits its 6
bits. -/
theorem xs_set_size_self (x : Xs) (hheap : x.isPtr = true → x.sizeField < 2 ^ 54)
    (hinl : x.isPtr = false → x.capBits < 64) :
    xs_set_size x (xs_size x) = x := by
  cases hp : x.isPtr with
  | true =>
    simp only [xs_set_size, xs_size, hp, if_true]
    have := hheap hp
    ext <;> simp [hp] <;> omega
  | false =>
    simp only [xs_set_size, xs_size, hp, Bool.false_eq_true, if_false]
    have hc := hinl hp
    have hsl : spaceLeft x < 16 := spaceLeft_lt x
    have h1 : (15 - spaceLeft x) % 2 ^ 64 = 15 - spaceLeft x := by
      apply Nat.mod_eq_of_lt
      omega
    rw [h1]
    have h2 : (15 + 2 ^ 64 - (15 - spaceLeft x)) % 2 ^ 64 = spaceLeft x := by
      omega
    rw [h2]
    have h3 : x.capBits % 4 + 4 * (spaceLeft x % 16) = x.capBits := by
      simp only [spaceLeft]
      omega
    simp only [setSpaceLeft, h3]

theorem peek_inline (σ : Store) (x : Xs) (hp : x.isPtr = false) (j : Nat) :
    peek σ x j = inlRead x j := by simp [peek, hp]

theorem content_inline_indep (σ σ' : Store) (x : Xs) (hp : x.isPtr = false) :
    content σ' x = content σ x := by
  simp only [content]
  exact List.map_congr_left fun j _ => by rw [peek_inline _ _ hp, peek_inline _ _ hp]

theorem xs_free_inline (σ : Store) (x : Xs) (hp : x.isPtr = false) :
    xs_free σ x = some (σ, xs_literal_empty) := by
  simp [xs_free, hp]

/-- `writeList` at offset 0 into an inline cell, for lists that fit and
whose byte 15, if covered, is a NUL: the flags survive and the data bytes
below 15 take the list's values. -/
theorem writeList_inline16 (σ : Store) (y : Xs) (l : List Byte)
    (hp : y.isPtr = false) (hl : l.length ≤ 16)
    (hlast : 15 < l.length → l.getD 15 0 = 0) :
    ∃ y', writeList σ y 0 l = some (σ, y') ∧ y'.isPtr = false ∧
      ∀ j, j < 15 → y'.data j = (if j < l.length then l.getD j 0 else y.data j) := by
  have hdata : ∀ j, j < 15 →
      (if 0 ≤ j ∧ j < 0 + l.length then l.getD (j - 0) 0 else y.data j) =
        (if j < l.length then l.getD j 0 else y.data j) := by
    intro j _
    rcases Nat.lt_or_ge j l.length with h | h
    · rw [if_pos ⟨Nat.zero_le _, by omega⟩, if_pos h, Nat.sub_zero]
    · rw [if_neg (by omega), if_neg (by omega)]
  simp only [writeList, hp, Bool.false_eq_true, if_false]
  rw [if_pos (by omega)]
  by_cases h15 : 15 < 0 + l.length
  · rw [if_pos ⟨Nat.zero_le _, h15⟩]
    have h0 : l.getD (15 - 0) 0 = 0 := by rw [Nat.sub_zero]; exact hlast (by omega)
    rw [h0]
    refine ⟨_, rfl, ?_, ?_⟩
    · simp [inlWriteByte]
    · intro j hj
      have hj15 : j ≠ 15 := by omega
      simp only [inlWriteByte, if_pos rfl]
      exact hdata j hj
  · rw [if_neg (by omega)]
    exact ⟨_, rfl, rfl, fun j hj => hdata j hj⟩

/-- `xs_grow` from the empty literal to a length above 15: a fresh heap
buffer of extent `2^60` appears, the value points at it, and its length
is 0. -/
theorem grow_empty (σ : Store) (len : Nat) (h15 : 15 < len) :
    ∃ σ' t, xs_grow σ xs_literal_empty len = some (σ', t) ∧
      t.isPtr = true ∧ t.ptr = σ.next ∧ t.capBits = 60 ∧ t.sizeField = 0 ∧
      σ'.next = σ.next + 1 ∧
      (∃ bb, σ'.bufs σ.next = some bb ∧ bb.extent = 2 ^ 60) ∧
      (∀ j, j ≠ σ.next → σ'.bufs j = σ.bufs j) := by
  have hcap : xs_capacity xs_literal_empty = 15 := rfl
  simp only [xs_grow, hcap]
  rw [if_neg (by omega)]
  simp only [xs_literal_empty, Bool.false_eq_true, if_false]
  simp only [xs_allocate, xs_free, Bool.false_eq_true, if_false]
  by_cases h256 : 256 ≤ len
  · rw [if_pos h256]
    simp only [xs_set_refcnt, Store.alloc, Store.set, eq_self_iff_true, if_true,
      ite_true, xs_size, xs_literal_empty]
    rw [if_pos (by norm_num)]
    simp only [writeList, eq_self_iff_true, if_true, ite_true, List.range_zero,
      List.map_nil, List.length_nil, Nat.add_zero, Nat.zero_le, Nat.zero_add]
    refine ⟨_, _, rfl, rfl, rfl, rfl, rfl, rfl, ?_, ?_⟩
    · exact ⟨_, Store.set_self _ _ _, rfl⟩
    · intro j hj
      simp [Store.set, hj]
  · rw [if_neg h256, if_pos (by omega)]
    simp only [Store.alloc, xs_size, xs_literal_empty, eq_self_iff_true, if_true, ite_true]
    rw [if_pos (by norm_num)]
    simp only [writeList, eq_self_iff_true, if_true, ite_true, List.range_zero,
      List.map_nil, List.length_nil, Nat.add_zero, Nat.zero_le, Nat.zero_add]
    refine ⟨_, _, rfl, rfl, rfl, rfl, rfl, rfl, ?_, ?_⟩
    · exact ⟨_, Store.set_self _ _ _, rfl⟩
    · intro j hj
      simp [Store.set, hj]

theorem Store.set_set (σ : Store) (i : Nat) (a b : Buf) :
    (σ.set i a).set i b = σ.set i b := by
  ext1
  · funext n
    by_cases hn : n = i <;> simp [Store.set, hn]
  · rfl

theorem trimTail_eq_heap (σ₁ : Store) (x₁ : Xs) (eff : List Byte) (b : Buf)
    (i s' : Nat) (hp : x₁.isPtr = true) (hb : σ₁.bufs x₁.ptr = some b)
    (hbe : b.extent = 2 ^ 60) (hsf : x₁.sizeField < 2 ^ 54)
    (htc : trimCore (2 ^ 60) (xs_size x₁) (peek σ₁ x₁)
      (fun c => eff.contains c) = some (i, s')) :
    trimTail σ₁ x₁ eff =
      some (σ₁.set x₁.ptr
        ⟨b.refcnt,
         fun j => if j = s' then 0 else if j < s' then b.mem (i + j) else b.mem j,
         b.extent⟩,
        { x₁ with sizeField := s' % 2 ^ 54 }) := by
  have hde : dataExtent σ₁ x₁ = some (2 ^ 60) := by simp [dataExtent, hp, hb, hbe]
  have hslen : xs_size x₁ ≤ 2 ^ 60 := by
    simp only [xs_size, hp, if_true]
    omega
  simp only [trimTail, hde]
  rw [if_pos hslen, htc]
  simp only [memMoveFront, hp, if_true, hb]
  have hpk : peek (σ₁.set x₁.ptr
      { b with mem := fun j => if j < s' then b.mem (i + j) else b.mem j }) x₁ s' =
      b.mem s' := by
    simp only [peek, hp, if_true, Store.set_self]
    rw [if_neg (by omega)]
  rw [hpk]
  by_cases ht : b.mem s' = 0
  · rw [if_neg (by simp [ht])]
    have hmemeq : (fun j => if j < s' then b.mem (i + j) else b.mem j) =
        (fun j => if j = s' then (0 : Byte) else
          if j < s' then b.mem (i + j) else b.mem j) := by
      funext j
      by_cases hj : j = s'
      · subst hj
        rw [if_neg (by omega), if_pos rfl, ht]
      · rw [if_neg hj]
    rw [hmemeq]
    simp only [xs_set_size, hp, if_true]
  · rw [if_pos (by simp [ht])]
    simp only [pokeByte, hp, if_true, Store.set_self, Store.set_set]
    simp only [xs_set_size, hp, if_true]



/-- What `xs_set_size` does to an inline cell, for sizes that fit. -/
theorem set_size_inline_props (x₃ : Xs) (s' : Nat) (hp : x₃.isPtr = false)
    (hs : s' ≤ 15) :
    (xs_set_size x₃ s').isPtr = false ∧ (xs_set_size x₃ s').isLarge = x₃.isLarge ∧
    (xs_set_size x₃ s').ptr = x₃.ptr ∧ (xs_set_size x₃ s').sizeField = x₃.sizeField ∧
    (∀ j, (xs_set_size x₃ s').data j = x₃.data j) ∧
    spaceLeft (xs_set_size x₃ s') = 15 - s' ∧
    (xs_set_size x₃ s').capBits < 64 := by
  simp only [xs_set_size, hp, Bool.false_eq_true, if_false]
  refine ⟨hp, rfl, rfl, rfl, fun j => rfl, ?_, ?_⟩
  · rw [spaceLeft_setSpaceLeft, concat_inline_size _ hs]
  · simp only [setSpaceLeft]
    have h1 : x₃.capBits % 4 < 4 := Nat.mod_lt _ (by norm_num)
    have h2 : ((15 + 2 ^ 64 - s' % 2 ^ 64) % 2 ^ 64) % 16 < 16 :=
      Nat.mod_lt _ (by norm_num)
    omega

theorem trimTail_inline_props (σ₁ : Store) (x₁ : Xs) (eff : List Byte)
    (i s' : Nat) (hp : x₁.isPtr = false) (hL : x₁.isLarge = false)
    (htc : trimCore 16 (xs_size x₁) (peek σ₁ x₁)
      (fun c => eff.contains c) = some (i, s')) :
    ∃ x', trimTail σ₁ x₁ eff = some (σ₁, x') ∧
      x'.isPtr = false ∧ x'.isLarge = false ∧ x'.ptr = x₁.ptr ∧
      x'.sizeField = x₁.sizeField ∧ x'.capBits < 64 ∧
      spaceLeft x' = 15 - s' ∧
      (∀ j, j < s' → x'.data j = inlRead x₁ (i + j)) ∧
      (s' < 15 → x'.data s' = 0) := by
  have hsl15 := xs_size_inline_le x₁ hp
  have hde : dataExtent σ₁ x₁ = some 16 := by simp [dataExtent, hp]
  obtain ⟨hi, him, hbound, hse, hsslen⟩ :=
    trimCore_some 16 _ _ _ i s' (by norm_num) (by omega) htc
  simp only [trimTail, hde]
  rw [if_pos (by omega), htc]
  simp only [memMoveFront, hp, Bool.false_eq_true, if_false]
  set y := ({ x₁ with isPtr := false, data := fun j => if j < s' then inlRead x₁ (i + j) else x₁.data j } : Xs) with hy
  have hyp : y.isPtr = false := by rw [hy]
  have hydata : ∀ j, y.data j = if j < s' then inlRead x₁ (i + j) else x₁.data j :=
    fun j => by rw [hy]
  by_cases h15 : s' = 15
  · have hsp : spaceLeft x₁ = 0 := by
      simp only [xs_size, hp, Bool.false_eq_true, if_false] at hsslen
      have := spaceLeft_lt x₁
      omega
    have ht0 : peek σ₁ y s' = 0 := by
      rw [peek_inline σ₁ y hyp, inlRead, if_pos h15]
      apply Fin.ext
      show spaceLeft y % 16 + 16 * cond y.isPtr 1 0 + 32 * cond y.isLarge 1 0 =
        (0 : Fin 256).val
      have hys : spaceLeft y = 0 := by rw [hy]; simpa [spaceLeft] using hsp
      have hyL : y.isLarge = false := by rw [hy]; exact hL
      rw [hys, hyp, hyL]
      rfl
    rw [ht0]
    rw [if_neg (by simp)]
    obtain ⟨p1, p2, p3, p4, p5, p6, p7⟩ := set_size_inline_props y s' hyp (by omega)
    refine ⟨_, rfl, p1, ?_, p3, p4, p7, p6, ?_, fun hc => absurd hc (by omega)⟩
    · rw [p2, hy]
      exact hL
    · intro j hj
      rw [p5 j, hydata j, if_pos hj]
  · have hs'15 : s' < 15 := by omega
    have ht : peek σ₁ y s' = x₁.data s' := by
      rw [peek_inline σ₁ y hyp, inlRead, if_neg (by omega), hydata s',
        if_neg (by omega)]
    rw [ht]
    by_cases hz : x₁.data s' = 0
    · rw [if_neg (by simp [hz])]
      obtain ⟨p1, p2, p3, p4, p5, p6, p7⟩ := set_size_inline_props y s' hyp (by omega)
      refine ⟨_, rfl, p1, ?_, p3, p4, p7, p6, ?_, ?_⟩
      · rw [p2, hy]
        exact hL
      · intro j hj
        rw [p5 j, hydata j, if_pos hj]
      · intro _
        rw [p5 s', hydata s', if_neg (by omega), hz]
    · rw [if_pos (by simp [hz])]
      simp only [pokeByte, hyp, Bool.false_eq_true, if_false]
      rw [inlWriteByte, if_neg h15]
      set z : Xs := { y with data := fun j => if j = s' then (0 : Byte) else y.data j }
        with hz2
      have hzp : z.isPtr = false := by rw [hz2]
      have hzdata : ∀ j, z.data j = if j = s' then (0 : Byte) else y.data j :=
        fun j => by rw [hz2]
      obtain ⟨p1, p2, p3, p4, p5, p6, p7⟩ := set_size_inline_props z s' hzp (by omega)
      refine ⟨_, rfl, p1, ?_, ?_, ?_, p7, p6, ?_, ?_⟩
      · rw [p2, hz2, hy]
        exact hL
      · rw [p3, hz2, hy]
      · rw [p4, hz2, hy]
      · intro j hj
        rw [p5 j, hzdata j, if_neg (by omega), hydata j, if_pos hj]
      · intro _
        rw [p5 s', hzdata s', if_pos rfl]

/-- Well-formedness alone gives the capacity invariant: a heap size fits
the 54-bit field while the capacity reads 2^60 - 1, and an inline size is
at most the fixed 15. -/
theorem lenInv_of_WF (σ : Store) (x : Xs) (h : WF σ x) : lenInv x := by
  unfold lenInv xs_capacity
  cases hp : x.isPtr with
  | false => exact (xs_size_inline_le x hp).trans (by norm_num)
  | true =>
    rw [if_pos rfl, h.cap60 hp]
    have := h.sizeOk hp
    simp only [xs_size, hp, if_true]
    omega

/-- On a value already in trimmed shape, the post-cow part of `xs_trim`
is the identity: both scans pass the whole content, the move copies in
place, the terminator is already there and the size store is idempotent. -/
theorem trimTail_fixed (σ : Store) (x : Xs) (eff : List Byte)
    (hWF : WF σ x) (hcapI : x.isPtr = false → x.capBits < 64)
    (hends : 0 < xs_size x →
      eff.contains (peek σ x 0) = false ∧
      eff.contains (peek σ x (xs_size x - 1)) = false) :
    trimTail σ x eff = some (σ, x) := by
  obtain ⟨e, he, hsle, he1, he0⟩ := dataExtent_of_WF σ x hWF
  have hlead : leadScan (peek σ x) (fun b => eff.contains b) (xs_size x) = 0 := by
    rcases Nat.eq_zero_or_pos (xs_size x) with h0 | h0
    · rw [h0]
      rfl
    · exact leadScan_zero _ _ _ (hends h0).1
  have hback : backScan (peek σ x) (fun b => eff.contains b) (xs_size x) =
      xs_size x := by
    rcases Nat.eq_zero_or_pos (xs_size x) with h0 | h0
    · rw [h0]
      rfl
    · exact backScan_all _ _ _ h0 (hends h0).2
  have hmod : (xs_size x + 2 ^ 64 - 0) % 2 ^ 64 = xs_size x := by
    have : xs_size x < 2 ^ 64 := by
      have : e ≤ 2 ^ 60 := by
        cases hp : x.isPtr
        · rw [he0 hp]
          norm_num
        · rw [he1 hp]
      have h60 : (2 : Nat) ^ 60 ≤ 2 ^ 64 := by norm_num
      omega
    omega
  have htc : trimCore e (xs_size x) (peek σ x) (fun b => eff.contains b) =
      some (0, xs_size x) := by
    simp only [trimCore, hlead, hback, hmod]
    rw [if_pos ⟨by omega, by omega⟩]
  simp only [trimTail, he]
  rw [if_pos (by omega)]
  simp only [htc, memMoveFront_zero σ x (xs_size x) hWF.live
    (fun hp => (xs_size_inline_le x hp))]
  simp only [hWF.term]
  rw [if_neg (by simp)]
  rw [xs_set_size_self x hWF.sizeOk hcapI]

/-- Trimming a value already in trimmed shape changes nothing. -/
theorem trim_fixed (σ : Store) (x : Xs) (ts : List Byte)
    (h : Trimmed σ x (ts.takeWhile (fun b => b ≠ 0))) :
    xs_trim σ x ts = some (σ, x) := by
  obtain ⟨hWF, hun, hcapI, hends⟩ := h
  simp only [xs_trim]
  by_cases hemp : (ts.takeWhile (fun b => b ≠ 0)).isEmpty
  · rw [if_pos hemp]
  · rw [if_neg hemp, cow_unshared σ x hWF hun]
    exact trimTail_fixed σ x _ hWF hcapI hends

/-- A successful post-cow trim of an inline value leaves the store alone
and produces a well-formed inline value in trimmed shape. -/
theorem trimTail_inline_trimmed (σ : Store) (x : Xs) (eff : List Byte)
    (σ' : Store) (x' : Xs) (hp : x.isPtr = false) (hL : x.isLarge = false)
    (h : trimTail σ x eff = some (σ', x')) :
    σ' = σ ∧ Trimmed σ' x' eff ∧ x'.isPtr = false ∧ x'.isLarge = false ∧
      x'.ptr = x.ptr := by
  have hde : dataExtent σ x = some 16 := by simp [dataExtent, hp]
  have hsl := xs_size_inline_le x hp
  have h2 := h
  simp only [trimTail, hde] at h2
  rw [if_pos (by omega)] at h2
  rcases htc : trimCore 16 (xs_size x) (peek σ x) (fun b => eff.contains b)
    with _ | ⟨i, s'⟩
  · simp only [htc] at h2
    exact Option.noConfusion h2
  · obtain ⟨x'', heq, q1, q2, q3, q4, qcap, qspace, qdata, qterm⟩ :=
      trimTail_inline_props σ x eff i s' hp hL htc
    rw [heq] at h
    have h' := Option.some.inj h
    have hσ : σ = σ' := congrArg Prod.fst h'
    have hx : x'' = x' := congrArg Prod.snd h'
    subst hσ hx
    obtain ⟨hi, him, hbound, hse, hsslen⟩ :=
      trimCore_some 16 _ _ _ i s' (by norm_num) (by omega) htc
    have hsz : xs_size x'' = s' := by
      simp only [xs_size, q1, Bool.false_eq_true, if_false, qspace]
      omega
    have hrd : ∀ j, peek σ x'' j = x''.data j ∨ (j = 15 ∧ peek σ x'' j = packedByte15 x'') := by
      intro j
      rw [peek_inline σ x'' q1, inlRead]
      by_cases hj : j = 15
      · exact Or.inr ⟨hj, by rw [if_pos hj]⟩
      · exact Or.inl (by rw [if_neg hj])
    refine ⟨rfl, ⟨?_, ?_, fun _ => qcap, ?_⟩, q1, q2, q3⟩
    · refine ⟨?_, ?_, ?_, ?_, ?_, ?_, ?_⟩
      · intro hc
        rw [q2] at hc
        cases hc
      · intro hc
        rw [q1] at hc
        cases hc
      · intro hc
        rw [q1] at hc
        cases hc
      · intro hc
        rw [q1] at hc
        cases hc
      · intro b _ hc
        rw [q1] at hc
        cases hc
      · intro b _ hc
        rw [q2] at hc
        cases hc
      · rw [hsz, peek_inline σ x'' q1, inlRead]
        by_cases h15 : s' = 15
        · rw [if_pos h15]
          apply Fin.ext
          show spaceLeft x'' % 16 + 16 * cond x''.isPtr 1 0 +
            32 * cond x''.isLarge 1 0 = (0 : Fin 256).val
          rw [qspace, q1, q2, h15]
          rfl
        · rw [if_neg h15]
          exact qterm (by omega)
    · intro b _ hc
      rw [q2] at hc
      cases hc
    · intro hpos
      rw [hsz] at hpos
      have hilt : i < xs_size x := by
        have := backScan_le (peek σ x) (fun b => eff.contains b) (xs_size x)
        omega
      constructor
      · have hpk : peek σ x'' 0 = peek σ x i := by
          rw [peek_inline σ x'' q1, inlRead, if_neg (by omega),
            qdata 0 (by omega), Nat.add_zero, peek_inline σ x hp, inlRead]
        rw [hpk]
        have := leadScan_stop (peek σ x) (fun b => eff.contains b) (xs_size x)
          (by rw [← hi]; omega)
        rw [← hi] at this
        exact this
      · have hpk : peek σ x'' (xs_size x'' - 1) = peek σ x (i + (s' - 1)) := by
          rw [hsz, peek_inline σ x'' q1, inlRead, if_neg (by omega),
            qdata (s' - 1) (by omega), peek_inline σ x hp, inlRead]
        rw [hpk]
        have hbs : 0 < backScan (peek σ x) (fun b => eff.contains b) (xs_size x) := by
          omega
        have := backScan_stop (peek σ x) (fun b => eff.contains b) (xs_size x) hbs
        have harg : i + (s' - 1) =
            backScan (peek σ x) (fun b => eff.contains b) (xs_size x) - 1 := by
          omega
        rw [harg]
        exact this

/-- A successful post-cow trim of an unshared heap value: the store only
changes at the value's buffer, the pointer, flags and capacity field are
kept, and the result is well-formed and in trimmed shape. -/
theorem trimTail_heap_trimmed (σ : Store) (x : Xs) (eff : List Byte)
    (σ' : Store) (x' : Xs) (hWF : WF σ x) (hun : unshared σ x)
    (hp : x.isPtr = true) (h : trimTail σ x eff = some (σ', x')) :
    Trimmed σ' x' eff ∧ x'.isPtr = true ∧ x'.isLarge = x.isLarge ∧
      x'.ptr = x.ptr ∧ x'.capBits = x.capBits ∧
      (∀ b₀, σ.bufs x.ptr = some b₀ →
        ∃ b', σ'.bufs x.ptr = some b' ∧ b'.refcnt = b₀.refcnt ∧
          b'.extent = b₀.extent) := by
  obtain ⟨b, hb⟩ := hWF.live hp
  have hbe := hWF.extentOk b hb hp
  have hsf := hWF.sizeOk hp
  have hde : dataExtent σ x = some (2 ^ 60) := by simp [dataExtent, hp, hb, hbe]
  have hslen : xs_size x ≤ 2 ^ 60 := by
    simp only [xs_size, hp, if_true]
    have : (2 : Nat) ^ 54 ≤ 2 ^ 60 := by norm_num
    omega
  have h2 := h
  simp only [trimTail, hde] at h2
  rw [if_pos hslen] at h2
  rcases htc : trimCore (2 ^ 60) (xs_size x) (peek σ x) (fun b => eff.contains b)
    with _ | ⟨i, s'⟩
  · simp only [htc] at h2
    exact Option.noConfusion h2
  · rw [trimTail_eq_heap σ x eff b i s' hp hb hbe hsf htc] at h
    have h' := Option.some.inj h
    have hσ : σ.set x.ptr
        ⟨b.refcnt,
         fun j => if j = s' then 0 else if j < s' then b.mem (i + j) else b.mem j,
         b.extent⟩ = σ' := congrArg Prod.fst h'
    have hx : { x with sizeField := s' % 2 ^ 54 } = x' := congrArg Prod.snd h'
    subst hσ hx
    obtain ⟨hi, him, hbound, hse, hsslen⟩ :=
      trimCore_some (2 ^ 60) _ _ _ i s' (le_refl _) hslen htc
    have hs54 : s' < 2 ^ 54 := by
      simp only [xs_size, hp, if_true] at hsslen
      omega
    have hs54' : s' % 2 ^ 54 = s' := Nat.mod_eq_of_lt hs54
    have hsz : xs_size { x with sizeField := s' % 2 ^ 54 } = s' := by
      simp only [xs_size, hp, if_true, hs54']
    have hrd : ∀ j, peek σ x j = b.mem j := by
      intro j
      simp [peek, hp, hb]
    have hbufs : (σ.set x.ptr
        ⟨b.refcnt,
         fun j => if j = s' then 0 else if j < s' then b.mem (i + j) else b.mem j,
         b.extent⟩).bufs x.ptr =
        some ⟨b.refcnt,
         fun j => if j = s' then 0 else if j < s' then b.mem (i + j) else b.mem j,
         b.extent⟩ := Store.set_self _ _ _
    have hrd' : ∀ j, peek (σ.set x.ptr
        ⟨b.refcnt,
         fun j => if j = s' then 0 else if j < s' then b.mem (i + j) else b.mem j,
         b.extent⟩) { x with sizeField := s' % 2 ^ 54 } j =
        if j = s' then 0 else if j < s' then b.mem (i + j) else b.mem j := by
      intro j
      simp only [peek, hp, if_true, hbufs]
    refine ⟨⟨?_, ?_, ?_, ?_⟩, hp, rfl, rfl, rfl, ?_⟩
    · refine ⟨fun _ => hp, fun _ => ⟨_, hbufs⟩, fun _ => hWF.cap60 hp,
        fun _ => by rw [hs54']; exact hs54, ?_, ?_, ?_⟩
      · intro bb hbb _
        rw [hbufs] at hbb
        rw [← Option.some.inj hbb]
        exact hbe
      · intro bb hbb hLL
        rw [hbufs] at hbb
        rw [← Option.some.inj hbb]
        exact hWF.refOk b hb hLL
      · rw [hsz, hrd' s', if_pos rfl]
    · intro bb hbb hLL
      rw [hbufs] at hbb
      rw [← Option.some.inj hbb]
      exact hun b hb hLL
    · intro hc
      rw [hp] at hc
      cases hc
    · intro hpos
      rw [hsz] at hpos
      have hilt : i < xs_size x := by
        have := backScan_le (peek σ x) (fun b => eff.contains b) (xs_size x)
        omega
      constructor
      · rw [hrd' 0, if_neg (by omega), if_pos (by omega)]
        have := leadScan_stop (peek σ x) (fun b => eff.contains b) (xs_size x)
          (by rw [← hi]; omega)
        rw [← hi, hrd i] at this
        rw [Nat.add_zero]
        exact this
      · rw [hsz, hrd' (s' - 1), if_neg (by omega), if_pos (by omega)]
        have hbs : 0 < backScan (peek σ x) (fun b => eff.contains b) (xs_size x) := by
          omega
        have := backScan_stop (peek σ x) (fun b => eff.contains b) (xs_size x) hbs
        rw [hrd] at this
        have harg : i + (s' - 1) =
            backScan (peek σ x) (fun b => eff.contains b) (xs_size x) - 1 := by
          omega
        rw [harg]
        exact this
    · intro b₀ hb₀
      rw [hb] at hb₀
      cases Option.some.inj hb₀
      exact ⟨_, Store.set_self _ _ _, rfl, rfl⟩

theorem lenInv_inline (x : Xs) (hp : x.isPtr = false) : lenInv x := by
  simp only [lenInv, xs_capacity, hp, Bool.false_eq_true, if_false]
  exact xs_size_inline_le x hp

theorem lenInv_heap60 (x : Xs) (hp : x.isPtr = true) (hc : x.capBits = 60)
    (hs : x.sizeField < 2 ^ 54) : lenInv x := by
  simp only [lenInv, xs_capacity, xs_size, hp, if_true, hc]
  have : (2 : Nat) ^ 54 < 2 ^ 60 := by norm_num
  omega

/-- `xs_free` always leaves the empty literal in the cell. -/
theorem xs_free_snd (σ : Store) (x : Xs) (σ' : Store) (x' : Xs)
    (h : xs_free σ x = some (σ', x')) : x' = xs_literal_empty := by
  simp only [xs_free] at h
  by_cases hp : x.isPtr
  · rw [if_pos hp] at h
    rcases hd : xs_dec_refcnt σ x with _ | ⟨r, σ₁⟩
    · simp only [hd] at h
      exact Option.noConfusion h
    · simp only [hd] at h
      by_cases hr : r ≤ 0
      · rw [if_pos hr] at h
        rcases hb : σ₁.bufs x.ptr with _ | b
        · simp only [hb] at h
          exact Option.noConfusion h
        · simp only [hb] at h
          exact ((congrArg Prod.snd (Option.some.inj h)) : xs_literal_empty = x').symm
      · rw [if_neg hr] at h
        exact ((congrArg Prod.snd (Option.some.inj h)) : xs_literal_empty = x').symm
  · rw [if_neg hp] at h
    exact ((congrArg Prod.snd (Option.some.inj h)) : xs_literal_empty = x').symm

/-- The shapes `xs_allocate` can leave in the cell: the reset empty
literal for small requests, otherwise a heap value whose capacity field
holds the reset value 60 and whose size field is 0. -/
theorem xs_allocate_shape (σ : Store) (x : Xs) (len : Nat) (σ₁ : Store) (x₁ : Xs)
    (h : xs_allocate σ x len = some (σ₁, x₁)) :
    (len ≤ 15 ∧ x₁ = xs_literal_empty) ∨
    (15 < len ∧ x₁.isPtr = true ∧ x₁.capBits = 60 ∧ x₁.sizeField = 0) := by
  simp only [xs_allocate] at h
  rcases hf : xs_free σ { x with capBits := ((ilog2 len + 1) % 64).toNat }
    with _ | ⟨σf, xf⟩
  · simp only [hf] at h
    exact Option.noConfusion h
  · simp only [hf] at h
    have hxf : xf = xs_literal_empty := xs_free_snd _ _ _ _ hf
    subst hxf
    by_cases h256 : 256 ≤ len
    · rw [if_pos h256] at h
      rcases hrc : xs_set_refcnt (σf.alloc
          ⟨0, fun _ => junkByte, 2 ^ ({ xs_literal_empty with isLarge := true } : Xs).capBits⟩).1
          { { xs_literal_empty with isLarge := true } with
              ptr := (σf.alloc ⟨0, fun _ => junkByte,
                2 ^ ({ xs_literal_empty with isLarge := true } : Xs).capBits⟩).2,
              isPtr := true } 1 with _ | σ₃
      · simp only [hrc] at h
        exact Option.noConfusion h
      · simp only [hrc] at h
        rw [Option.some.injEq, Prod.mk.injEq] at h
        obtain ⟨h1, h2⟩ := h
        exact Or.inr ⟨by omega, by rw [← h2], by rw [← h2]; rfl, by rw [← h2]; rfl⟩
    · rw [if_neg h256] at h
      by_cases h15 : 15 < len
      · rw [if_pos h15] at h
        rw [Option.some.injEq, Prod.mk.injEq] at h
        obtain ⟨h1, h2⟩ := h
        exact Or.inr ⟨h15, by rw [← h2], by rw [← h2]; rfl, by rw [← h2]; rfl⟩
      · rw [if_neg h15] at h
        rw [Option.some.injEq, Prod.mk.injEq] at h
        obtain ⟨h1, h2⟩ := h
        exact Or.inl ⟨by omega, h2.symm⟩

/-- A successful heap `writeList` never changes the value cell. -/
theorem writeList_heap_snd (σ : Store) (x : Xs) (off : Nat) (l : List Byte)
    (σ' : Store) (x' : Xs) (hp : x.isPtr = true)
    (h : writeList σ x off l = some (σ', x')) : x' = x := by
  simp only [writeList, hp, if_true] at h
  rcases hb : σ.bufs x.ptr with _ | b
  · simp only [hb] at h
    exact Option.noConfusion h
  · simp only [hb] at h
    by_cases hle : off + l.length ≤ b.extent
    · rw [if_pos hle] at h
      exact ((congrArg Prod.snd (Option.some.inj h)) : x = x').symm
    · rw [if_neg hle] at h
      exact Option.noConfusion h

/-- Reads are insensitive to a count-only buffer update. -/
theorem peek_set_same_mem (σ : Store) (p : Nat) (b b' : Buf)
    (hb : σ.bufs p = some b) (hmem : b'.mem = b.mem) (y : Xs) (j : Nat) :
    peek (σ.set p b') y j = peek σ y j := by
  simp only [peek]
  by_cases hyp : y.isPtr
  · rw [if_pos hyp, if_pos hyp]
    by_cases hptr : y.ptr = p
    · rw [hptr]
      simp only [Store.set_self, hb, hmem]
    · rw [Store.set_other σ p b' y.ptr hptr]
  · rw [if_neg hyp, if_neg hyp]

theorem xs_capacity_ge_15 (σ : Store) (x : Xs) (h : WF σ x) :
    15 ≤ xs_capacity x := by
  unfold xs_capacity
  by_cases hp : x.isPtr
  · rw [if_pos hp, h.cap60 hp]
    norm_num
  · rw [if_neg hp]

theorem xs_set_size_isPtr (x : Xs) (s : Nat) : (xs_set_size x s).isPtr = x.isPtr := by
  by_cases hp : x.isPtr
  · simp [xs_set_size, hp]
  · simp [xs_set_size, hp, setSpaceLeft_isPtr]

theorem lenInv_set_size_heap60 (x : Xs) (hp : x.isPtr = true) (hc : x.capBits = 60)
    (s : Nat) : lenInv (xs_set_size x s) := by
  simp only [xs_set_size, hp, if_true]
  exact lenInv_heap60 _ rfl hc (Nat.mod_lt _ (by norm_num))

theorem lenInv_free (σ : Store) (x : Xs) (σ' : Store) (x' : Xs)
    (h : xs_free σ x = some (σ', x')) : lenInv x' := by
  rw [xs_free_snd σ x σ' x' h]
  exact lenInv_inline _ rfl

theorem lenInv_new (σ : Store) (x : Xs) (p : List Byte) (σ' : Store) (x' : Xs)
    (h : xs_new σ x p = some (σ', x')) : lenInv x' := by
  simp only [xs_new] at h
  rcases ha : xs_allocate σ x p.length with _ | ⟨σ₁, x₁⟩
  · simp only [ha] at h
    exact Option.noConfusion h
  · simp only [ha] at h
    rcases hw : writeList σ₁ x₁ 0 (p ++ [0]) with _ | ⟨σ₂, x₂⟩
    · simp only [hw] at h
      exact Option.noConfusion h
    · simp only [hw] at h
      rw [Option.some.injEq, Prod.mk.injEq] at h
      obtain ⟨h1, h2⟩ := h
      rw [← h2]
      rcases xs_allocate_shape σ x p.length σ₁ x₁ ha with ⟨hlen, hx₁⟩ | ⟨hlen, hp, hc, hs⟩
      · subst hx₁
        obtain ⟨y', hweq, hyp, _⟩ := writeList_inline16 σ₁ xs_literal_empty (p ++ [0])
          rfl (by simp; omega)
          (fun hlt => by
            have hp15 : p.length = 15 := by
              simp only [List.length_append, List.length_cons, List.length_nil] at hlt
              omega
            rw [List.getD_append_right _ _ _ _ (by omega)]
            simp [hp15])
        rw [hw] at hweq
        rw [Option.some.injEq, Prod.mk.injEq] at hweq
        obtain ⟨hw1, hw2⟩ := hweq
        apply lenInv_inline
        rw [xs_set_size_isPtr, hw2]
        exact hyp
      · have hx₂ : x₂ = x₁ := writeList_heap_snd _ _ _ _ _ _ hp hw
        rw [hx₂]
        exact lenInv_set_size_heap60 x₁ hp hc _

theorem lenInv_cpy (σ : Store) (dest src : Xs) (σ' : Store) (d' : Xs)
    (hsrc : lenInv src) (h : xs_cpy σ dest src = some (σ', d')) : lenInv d' := by
  simp only [xs_cpy] at h
  rcases hf : xs_free σ dest with _ | ⟨σ₁, j⟩
  · simp only [hf] at h
    exact Option.noConfusion h
  · simp only [hf] at h
    by_cases h256 : xs_size src ≥ 256
    · rw [if_pos h256] at h
      rcases hi : xs_inc_refcnt σ₁ src with _ | σ₂
      · simp only [hi] at h
        exact Option.noConfusion h
      · simp only [hi] at h
        rw [Option.some.injEq, Prod.mk.injEq] at h
        obtain ⟨_, h2⟩ := h
        rw [← h2]
        exact hsrc
    · rw [if_neg h256] at h
      by_cases h15 : xs_size src > 15
      · rw [if_pos h15] at h
        rcases ha : xs_allocate σ₁ { src with isPtr := false } (xs_size src)
          with _ | ⟨σ₂, d₃⟩
        · simp only [ha] at h
          exact Option.noConfusion h
        · simp only [ha] at h
          rcases hr : readList σ₂ src 0 (xs_size src + 1) with _ | l
          · simp only [hr] at h
            exact Option.noConfusion h
          · simp only [hr] at h
            rcases hwl : writeList σ₂ d₃ 0 l with _ | ⟨σ₃, d₄⟩
            · simp only [hwl] at h
              exact Option.noConfusion h
            · simp only [hwl] at h
              rw [Option.some.injEq, Prod.mk.injEq] at h
              obtain ⟨_, h2⟩ := h
              rw [← h2]
              rcases xs_allocate_shape _ _ _ _ _ ha with ⟨hlen, _⟩ | ⟨_, hp2, hc2, hs2⟩
              · omega
              · have hd₄ : d₄ = d₃ := writeList_heap_snd _ _ _ _ _ _ hp2 hwl
                rw [hd₄]
                exact lenInv_heap60 _ hp2 hc2 (by rw [hs2]; norm_num)
      · rw [if_neg h15] at h
        rw [Option.some.injEq, Prod.mk.injEq] at h
        obtain ⟨_, h2⟩ := h
        rw [← h2]
        exact hsrc

theorem lenInv_grow (σ : Store) (x : Xs) (len : Nat) (σ' : Store) (x' : Xs)
    (hx : lenInv x) (h : xs_grow σ x len = some (σ', x')) : lenInv x' := by
  simp only [xs_grow] at h
  by_cases hcap : len ≤ xs_capacity x
  · rw [if_pos hcap] at h
    rw [Option.some.injEq, Prod.mk.injEq] at h
    obtain ⟨_, h2⟩ := h
    rw [← h2]
    exact hx
  · rw [if_neg hcap] at h
    by_cases hp : x.isPtr
    · rw [if_pos hp] at h
      rcases hob : σ.bufs x.ptr with _ | oldBuf
      · simp only [hob] at h
        exact Option.noConfusion h
      · simp only [hob] at h
        rcases ha : xs_allocate σ { x with isPtr := false } len with _ | ⟨σ₁, x₂⟩
        · simp only [ha] at h
          exact Option.noConfusion h
        · simp only [ha] at h
          by_cases hn : xs_size x₂ ≤ oldBuf.extent
          · rw [if_pos hn] at h
            rcases hwl : writeList σ₁ x₂ 0 ((List.range (xs_size x₂)).map oldBuf.mem)
              with _ | ⟨σ₂, x₃⟩
            · simp only [hwl] at h
              exact Option.noConfusion h
            · simp only [hwl] at h
              rcases hbf : σ₂.bufs x.ptr with _ | bb
              · simp only [hbf] at h
                exact Option.noConfusion h
              · simp only [hbf] at h
                rw [Option.some.injEq, Prod.mk.injEq] at h
                obtain ⟨_, h2⟩ := h
                rw [← h2]
                rcases xs_allocate_shape _ _ _ _ _ ha with ⟨_, hx₂⟩ | ⟨_, hp2, hc2, hs2⟩
                · subst hx₂
                  have hml : (List.range (xs_size xs_literal_empty)).map oldBuf.mem =
                      ([] : List Byte) := rfl
                  rw [hml] at hwl
                  obtain ⟨y', hweq, hyp, _⟩ := writeList_inline16 σ₁ xs_literal_empty
                    ([] : List Byte) rfl (by simp) (fun hlt => by simp at hlt)
                  rw [hwl] at hweq
                  rw [Option.some.injEq, Prod.mk.injEq] at hweq
                  obtain ⟨_, hw2⟩ := hweq
                  apply lenInv_inline
                  rw [hw2]
                  exact hyp
                · have hx₃ : x₃ = x₂ := writeList_heap_snd _ _ _ _ _ _ hp2 hwl
                  rw [hx₃]
                  exact lenInv_heap60 _ hp2 hc2 (by rw [hs2]; norm_num)
          · rw [if_neg hn] at h
            exact Option.noConfusion h
    · rw [if_neg hp] at h
      rcases ha : xs_allocate σ x len with _ | ⟨σ₁, x₂⟩
      · simp only [ha] at h
        exact Option.noConfusion h
      · simp only [ha] at h
        have hcap15 : xs_capacity x = 15 := by
          simp [xs_capacity, hp]
        rcases xs_allocate_shape _ _ _ _ _ ha with ⟨hlen, _⟩ | ⟨_, hp2, hc2, hs2⟩
        · omega
        · have hsz2 : xs_size x₂ = 0 := by
            simp only [xs_size, hp2, if_true, hs2]
          rw [if_pos (by omega)] at h
          rcases hwl : writeList σ₁ x₂ 0
              ((List.range (xs_size x₂)).map (fun j => inlRead x j))
            with _ | ⟨σ₂, x₃⟩
          · simp only [hwl] at h
            exact Option.noConfusion h
          · simp only [hwl] at h
            rw [Option.some.injEq, Prod.mk.injEq] at h
            obtain ⟨_, h2⟩ := h
            rw [← h2]
            have hx₃ : x₃ = x₂ := writeList_heap_snd _ _ _ _ _ _ hp2 hwl
            rw [hx₃]
            exact lenInv_heap60 _ hp2 hc2 (by rw [hs2]; norm_num)

theorem readList_length (σ : Store) (y : Xs) (off n : Nat) (l : List Byte)
    (h : readList σ y off n = some l) : l.length = n := by
  simp only [readList] at h
  rcases he : dataExtent σ y with _ | e
  · simp only [he] at h
    exact Option.noConfusion h
  · simp only [he] at h
    by_cases hle : off + n ≤ e
    · rw [if_pos hle] at h
      rw [← Option.some.inj h]
      simp
    · rw [if_neg hle] at h
      exact Option.noConfusion h

theorem readList_getD (σ : Store) (y : Xs) (off n : Nat) (l : List Byte)
    (h : readList σ y off n = some l) (j : Nat) (hj : j < n) :
    l.getD j 0 = peek σ y (off + j) := by
  simp only [readList] at h
  rcases he : dataExtent σ y with _ | e
  · simp only [he] at h
    exact Option.noConfusion h
  · simp only [he] at h
    by_cases hle : off + n ≤ e
    · rw [if_pos hle] at h
      rw [← Option.some.inj h]
      rw [List.getD_eq_getElem _ _ (by simp [hj])]
      simp [hj]
    · rw [if_neg hle] at h
      exact Option.noConfusion h

/-- A successful trim with a non-empty effective set leaves a value in
trimmed shape. -/
theorem trim_trimmed (σ : Store) (x : Xs) (ts : List Byte) (σ' : Store) (x' : Xs)
    (hWF : WF σ x) (hemp : ¬ ((ts.takeWhile (fun b => b ≠ 0)).isEmpty = true))
    (h : xs_trim σ x ts = some (σ', x')) :
    Trimmed σ' x' (ts.takeWhile (fun b => b ≠ 0)) := by
  have hform := h
  simp only [xs_trim] at hform
  rw [if_neg hemp] at hform
  rcases hcow : xs_cow_lazy_copy σ x with _ | ⟨σ₁, x₁, c⟩
  · simp only [hcow] at hform
    exact Option.noConfusion hform
  · simp only [hcow] at hform
    rcases cow_of_WF σ x σ₁ x₁ c hWF hcow with ⟨hσe, hxe, hun⟩ |
      ⟨b, hb, hr, hL, hpx, hσ₁, hx₁p, hx₁L, hrest⟩
    · subst hσe hxe
      cases hpq : x₁.isPtr with
      | false =>
        have hLf : x₁.isLarge = false := by
          cases hLq : x₁.isLarge
          · rfl
          · exact absurd (hWF.flags hLq) (by rw [hpq]; exact Bool.false_ne_true)
        exact (trimTail_inline_trimmed σ₁ x₁ _ σ' x' hpq hLf hform).2.1
      | true =>
        exact (trimTail_heap_trimmed σ₁ x₁ _ σ' x' hWF hun hpq hform).1
    · exact (trimTail_inline_trimmed σ₁ x₁ _ σ' x' hx₁p hx₁L hform).2.1

theorem lenInv_trim (σ : Store) (x : Xs) (ts : List Byte) (σ' : Store) (x' : Xs)
    (hWF : WF σ x) (h : xs_trim σ x ts = some (σ', x')) : lenInv x' := by
  by_cases hemp : (ts.takeWhile (fun b => b ≠ 0)).isEmpty
  · simp only [xs_trim, if_pos hemp] at h
    have hx : x = x' := congrArg Prod.snd (Option.some.inj h)
    rw [← hx]
    exact lenInv_of_WF σ x hWF
  · exact lenInv_of_WF σ' x' (trim_trimmed σ x ts σ' x' hWF hemp h).1

theorem writeList_some_le (σ : Store) (x : Xs) (l : List Byte) (σ' : Store) (x' : Xs)
    (hp : x.isPtr = false) (h : writeList σ x 0 l = some (σ', x')) :
    l.length ≤ 16 := by
  simp only [writeList, hp, Bool.false_eq_true, if_false] at h
  by_cases hle : 0 + l.length ≤ 16
  · omega
  · rw [if_neg hle] at h
    exact Option.noConfusion h

theorem lenInv_concat (σ : Store) (x preV sufV : Xs) (σ' : Store) (x' : Xs)
    (hWFx : WF σ x) (hWFs : WF σ sufV)
    (h : xs_concat σ x preV sufV = some (σ', x')) : lenInv x' := by
  simp only [xs_concat] at h
  rcases hcow : xs_cow_lazy_copy σ x with _ | ⟨σ₁, s₁, c⟩
  · simp only [hcow] at h
    exact Option.noConfusion h
  · simp only [hcow] at h
    rcases hpre : readList σ₁ preV 0 (xs_size preV) with _ | preB
    · simp only [hpre] at h
      exact Option.noConfusion h
    · rcases hsuf : readList σ₁ sufV 0 (xs_size sufV + 1) with _ | sufB
      · simp only [hpre, hsuf] at h
        exact Option.noConfusion h
      · simp only [hpre, hsuf] at h
        by_cases hfit : xs_size x + xs_size preV + xs_size sufV ≤ xs_capacity x
        · rw [if_pos hfit] at h
          rcases hold : readList σ₁ s₁ 0 (xs_size x) with _ | oldB
          · simp only [hold] at h
            exact Option.noConfusion h
          · simp only [hold] at h
            rcases hwl : writeList σ₁ s₁ 0 (preB ++ oldB ++ sufB) with _ | ⟨σ₂, s₂⟩
            · simp only [hwl] at h
              exact Option.noConfusion h
            · simp only [hwl] at h
              by_cases hs₂p : s₂.isPtr
              · rw [if_pos hs₂p] at h
                rw [Option.some.injEq, Prod.mk.injEq] at h
                obtain ⟨_, h2⟩ := h
                rw [← h2]
                by_cases hs₁p : s₁.isPtr
                · have hs₂ : s₂ = s₁ := writeList_heap_snd _ _ _ _ _ _ hs₁p hwl
                  rcases cow_of_WF σ x σ₁ s₁ c hWFx hcow with ⟨hσe, hxe, hun⟩ |
                    ⟨b, hb, hr, hL, hpx, hσ₁, hx₁p, hx₁L, hrest⟩
                  · subst hxe
                    refine lenInv_heap60 _ ?_ ?_ (Nat.mod_lt _ (by norm_num))
                    · show s₂.isPtr = true
                      exact hs₂p
                    · show s₂.capBits = 60
                      rw [hs₂]
                      exact hWFx.cap60 hs₁p
                  · rw [hx₁p] at hs₁p
                    exact absurd hs₁p (by simp)
                · exfalso
                  have hs₁p' : s₁.isPtr = false := Bool.eq_false_iff.mpr hs₁p
                  have hpreL : preB.length = xs_size preV :=
                    readList_length _ _ _ _ _ hpre
                  have holdL : oldB.length = xs_size x :=
                    readList_length _ _ _ _ _ hold
                  have hsufL : sufB.length = xs_size sufV + 1 :=
                    readList_length _ _ _ _ _ hsuf
                  have hterm : peek σ₁ sufV (xs_size sufV) = 0 := by
                    rcases cow_of_WF σ x σ₁ s₁ c hWFx hcow with ⟨hσe, _, _⟩ |
                      ⟨b, hb, hr, hL, hpx, hσ₁, _, _, _⟩
                    · rw [hσe]
                      exact hWFs.term
                    · rw [hσ₁]
                      rw [peek_set_same_mem σ x.ptr b
                        { b with refcnt := b.refcnt - 1 } hb rfl]
                      exact hWFs.term
                  have hL16 := writeList_some_le σ₁ s₁ (preB ++ oldB ++ sufB)
                    σ₂ s₂ hs₁p' hwl
                  obtain ⟨y', hweq, hyp, _⟩ := writeList_inline16 σ₁ s₁
                    (preB ++ oldB ++ sufB) hs₁p' hL16 (by
                      intro hlt
                      have htot : preB.length + oldB.length + sufB.length ≤ 16 := by
                        simp only [List.length_append] at hL16
                        omega
                      rw [List.getD_append_right _ _ _ _ (by
                        simp only [List.length_append] at hlt ⊢
                        omega)]
                      have hidx : 15 - (preB ++ oldB).length = xs_size sufV := by
                        simp only [List.length_append] at hlt htot ⊢
                        simp only [List.length_append, hsufL] at hlt htot
                        omega
                      rw [hidx]
                      rw [readList_getD σ₁ sufV 0 (xs_size sufV + 1) sufB hsuf
                        (xs_size sufV) (by omega)]
                      rw [Nat.zero_add]
                      exact hterm)
                  rw [hwl] at hweq
                  rw [Option.some.injEq, Prod.mk.injEq] at hweq
                  obtain ⟨_, hw2⟩ := hweq
                  rw [hw2, hyp] at hs₂p
                  exact Bool.noConfusion hs₂p
              · rw [if_neg hs₂p] at h
                rw [Option.some.injEq, Prod.mk.injEq] at h
                obtain ⟨_, h2⟩ := h
                rw [← h2]
                apply lenInv_inline
                rw [setSpaceLeft_isPtr]
                exact Bool.eq_false_iff.mpr hs₂p
        · rw [if_neg hfit] at h
          have h15 : 15 < xs_size x + xs_size preV + xs_size sufV := by
            have := xs_capacity_ge_15 σ x hWFx
            omega
          rcases hg : xs_grow σ₁ xs_literal_empty
              (xs_size x + xs_size preV + xs_size sufV) with _ | ⟨σ₂, t₁⟩
          · simp only [hg] at h
            exact Option.noConfusion h
          · simp only [hg] at h
            obtain ⟨σg, tg, hgeq, htp, htptr, htcap, htsf, hnext, hbb, hother⟩ :=
              grow_empty σ₁ (xs_size x + xs_size preV + xs_size sufV) h15
            rw [hg] at hgeq
            rw [Option.some.injEq, Prod.mk.injEq] at hgeq
            obtain ⟨hg1, hg2⟩ := hgeq
            rcases hold : readList σ₂ s₁ 0 (xs_size x) with _ | oldB
            · simp only [hold] at h
              exact Option.noConfusion h
            · simp only [hold] at h
              rcases hwl : writeList σ₂ t₁ 0 (preB ++ oldB ++ sufB) with _ | ⟨σ₃, t₂⟩
              · simp only [hwl] at h
                exact Option.noConfusion h
              · simp only [hwl] at h
                have ht₂ : t₂ = t₁ :=
                  writeList_heap_snd _ _ _ _ _ _ (by rw [hg2]; exact htp) hwl
                rcases hfr : xs_free σ₃ s₁ with _ | ⟨σ₄, w⟩
                · simp only [hfr] at h
                  exact Option.noConfusion h
                · simp only [hfr] at h
                  rw [Option.some.injEq, Prod.mk.injEq] at h
                  obtain ⟨_, h2⟩ := h
                  rw [← h2]
                  exact lenInv_heap60 _
                    (by show t₂.isPtr = true; rw [ht₂, hg2]; exact htp)
                    (by show t₂.capBits = 60; rw [ht₂, hg2]; exact htcap)
                    (Nat.mod_lt _ (by norm_num))

/-! ## Claim theorems -/

/-- C10: for every value that is not in the Large representation and every
store -- including stores in which the value's pointer field designates no
live buffer, so that any dereference would be undefined -- `xs_get_refcnt`
returns 0 and `xs_dec_refcnt` returns 0, and neither changes the store or
the value. -/
theorem C10_thm (σ : Store) (x : Xs) (h : x.isLarge = false) :
    xs_get_refcnt σ x = some 0 ∧ xs_dec_refcnt σ x = some (0, σ) := by
  constructor <;> simp [xs_get_refcnt, xs_dec_refcnt, h]

/-- Witness for C10 at a concrete non-Large value. -/
theorem C10_wit :
    xs_literal_empty.isLarge = false ∧
      xs_get_refcnt emptyStore xs_literal_empty = some 0 ∧
      xs_dec_refcnt emptyStore xs_literal_empty = some (0, emptyStore) :=
  ⟨rfl, C10_thm emptyStore xs_literal_empty rfl⟩

/-- C7 (code bug): `xs_allocate` with requested length 0 does evaluate the
exponent computation on 0 -- `ilog2(0)` calls `__builtin_clz(0)`, which gcc
documents as undefined (`ilog2UB 0 = none`) -- rather than skipping it or
treating 0 as needing capacity 1.  The final state is nevertheless the
valid empty Inline value, because the stored exponent is wiped by the
`xs_free` reset that follows it. -/
theorem C7_thm :
    ilog2UB 0 = none ∧
      xs_allocate emptyStore xs_literal_empty 0 =
        some (emptyStore, xs_literal_empty) :=
  ⟨rfl, rfl⟩

/-- C3 (code bug): allocating for a 300-byte string marks the value Large
and heap-backed with shared count 1 (the size-class part of the claim),
but the resulting capacity is `2^60 - 1` and the malloc'd data extent is
`2^60` bytes -- not the claimed smallest `2^k - 1 ≥ 300 = 2^9 - 1` --
because `xs_free` resets the cell (making the 6-bit capacity field read
60, the image of `space_left = 15`) after the exponent was stored. -/
theorem C3_thm :
    ((xs_allocate emptyStore xs_literal_empty 300).map
        (fun r => (xs_capacity r.2, r.2.isLarge, r.2.isPtr,
          (r.1.bufs r.2.ptr).map (fun b => (b.refcnt, b.extent)))) =
      some (2 ^ 60 - 1, true, true, some (1, 2 ^ 60))) ∧
      (2 ^ 60 - 1 : Nat) ≠ 2 ^ 9 - 1 := by
  exact ⟨rfl, by norm_num⟩

/-- C5 (code bug): growing the inline value "hello" (length 5) to target
length 20 reallocates, but the subsequent `memcpy` copies `xs_size(x)`
bytes where `x` has just been reset -- zero bytes -- and the length is
never restored: the result has logical length 0, not 5, and none of the
original bytes are in its content. -/
theorem C5_thm :
    (match xs_new emptyStore xs_literal_empty [104, 101, 108, 108, 111] with
      | some (σ, x) =>
        (xs_grow σ x 20).map (fun r => (xs_size r.2, r.2.isPtr, content r.1 r.2))
      | none => none) = some (0, true, []) := by
  rfl

/-- `xs_new` from any source of length `2^54`: no rejection happens, a
buffer is allocated, and the stored length wraps to 0. -/
theorem C8_helper (p : List Byte) (h : p.length = 2 ^ 54) :
    (xs_new emptyStore xs_literal_empty p).map
        (fun r => (r.1.next, r.2.isPtr, r.2.isLarge, xs_size r.2)) =
      some (1, true, true, 0) := by
  simp only [xs_new, xs_allocate, xs_free, xs_dec_refcnt, xs_set_refcnt,
    xs_set_size, xs_size, writeList, Store.alloc, Store.set, Store.del,
    xs_literal_empty, emptyStore, ilog2, ilog2UB, h, List.length_append,
    List.length_cons, List.length_nil]
  norm_num

/-- C8 (code bug): constructing from a source of length `2^54` (one more
than `MAX_STR_LEN = 2^54 - 1`) is not rejected: `xs_new` performs no
length check, the allocation happens (a buffer appears in the store and
the value is heap-backed), the full content is written, and the 54-bit
size bitfield wraps to 0. -/
theorem C8_thm :
    (xs_new emptyStore xs_literal_empty (List.replicate (2 ^ 54) 97)).map
        (fun r => (r.1.next, r.2.isPtr, r.2.isLarge, xs_size r.2)) =
      some (1, true, true, 0) :=
  C8_helper _ (List.length_replicate _ _)

/-- The shared fixture's buffer lookup. -/
theorem sharedLookup : sharedStore.bufs sharedXs.ptr = some sharedBuf := rfl

/-- The shared fixture is well-formed. -/
theorem sharedWF : WF sharedStore sharedXs := by
  refine ⟨fun _ => rfl, fun _ => ⟨sharedBuf, rfl⟩, fun _ => rfl,
    fun _ => by norm_num [sharedXs], ?_, ?_, ?_⟩
  · intro b hb _
    rw [sharedLookup] at hb
    cases hb
    rfl
  · intro b hb _
    rw [sharedLookup] at hb
    cases hb
    norm_num [sharedBuf]
  · rfl

/-- The shared fixture's store is coherent. -/
theorem sharedStoreWF : StoreWF sharedStore := by
  intro i hi
  have hi' : 1 ≤ i := hi
  have h : i ≠ 0 := by omega
  simp [sharedStore, h]

/-- The sole-referent fixture's buffer lookup. -/
theorem soleLookup : soleStore.bufs soleXs.ptr = some soleBuf := rfl

/-- The sole-referent fixture is well-formed. -/
theorem soleWF : WF soleStore soleXs := by
  refine ⟨fun _ => rfl, fun _ => ⟨soleBuf, rfl⟩, fun _ => rfl,
    fun _ => by norm_num [soleXs], ?_, ?_, ?_⟩
  · intro b hb _
    rw [soleLookup] at hb
    cases hb
    rfl
  · intro b hb _
    rw [soleLookup] at hb
    cases hb
    norm_num [soleBuf]
  · rfl

/-- The sole-referent fixture does not share its buffer. -/
theorem soleUnshared : unshared soleStore soleXs := by
  intro b hb _
  rw [soleLookup] at hb
  cases hb
  norm_num [soleBuf]

/-- C1 counterexample: a well-formed Large target whose buffer is shared
(count 2).  `xs_concat` with empty prefix and suffix -- which the claim
says leaves the target unchanged -- has no defined result: the
copy-on-write step collapses the target to an inline cell (reading its
size as 0 through the re-aliased `space_left` bits), after which the
in-place branch moves the 300 old bytes inside the 16-byte cell, off the
object. -/
theorem C1_cex :
    WF sharedStore sharedXs ∧ StoreWF sharedStore ∧
      xs_concat sharedStore sharedXs xs_literal_empty xs_literal_empty = none :=
  ⟨sharedWF, sharedStoreWF, rfl⟩

/-- C6 counterexample: trimming the inline value "aaa" with the set
{'a'} has no defined result: both scans accept every byte, so
`slen -= i` wraps around 2^64 and the `memmove` runs off the object.
The claim's `trim(trim(x, set), set)` therefore has no content or length
to compare at this input. -/
theorem C6_cex :
    WF emptyStore (mkInline [97, 97, 97]) ∧
      xs_trim emptyStore (mkInline [97, 97, 97]) [97] = none := by
  refine ⟨⟨?_, ?_, ?_, ?_, ?_, ?_, ?_⟩, rfl⟩
  · exact fun h => by cases h
  · exact fun h => by cases h
  · exact fun h => by cases h
  · exact fun h => by cases h
  · intro b hb
    simp [emptyStore] at hb
  · intro b hb
    simp [emptyStore] at hb
  · rfl

/-- C9 counterexample: trimming the well-formed shared Large fixture with
the (disjoint) set {'n'} changes its capacity from `2^60 - 1` to 15: the
copy-on-write step collapses the value to an inline cell, abandoning the
heap buffer. -/
theorem C9_cex :
    WF sharedStore sharedXs ∧ StoreWF sharedStore ∧
      xs_capacity sharedXs = 2 ^ 60 - 1 ∧
      ((xs_trim sharedStore sharedXs [110]).map
        (fun r => (xs_capacity r.2, r.2.isPtr)) = some (15, false)) ∧
      (15 : Nat) ≠ 2 ^ 60 - 1 :=
  ⟨sharedWF, sharedStoreWF, rfl, rfl, by norm_num⟩

theorem mkInline_isPtr (l : List Byte) : (mkInline l).isPtr = false := rfl

theorem mkInline_size (l : List Byte) (h : l.length ≤ 15) :
    xs_size (mkInline l) = l.length := by
  simp only [xs_size, mkInline, spaceLeft, Bool.false_eq_true, if_false]
  omega

theorem mkInline_WF (l : List Byte) (h : l.length ≤ 15) :
    WF emptyStore (mkInline l) := by
  refine ⟨?_, ?_, ?_, ?_, ?_, ?_, ?_⟩
  · intro hc; cases hc
  · intro hc; cases hc
  · intro hc; cases hc
  · intro hc; cases hc
  · intro b hb; cases hb
  · intro b hb; cases hb
  · rw [peek_inline _ _ rfl, mkInline_size l h]
    by_cases h15 : l.length = 15
    · apply Fin.ext
      simp [inlRead, h15, packedByte15, spaceLeft, mkInline]
    · rw [inlRead, if_neg h15]
      simp only [mkInline]
      exact List.getD_eq_default _ _ (by omega)

theorem mkInline_unshared (σ : Store) (l : List Byte) : unshared σ (mkInline l) := by
  intro b _ hc
  cases hc

theorem mkInline_content (σ : Store) (l : List Byte) (h : l.length ≤ 15) :
    content σ (mkInline l) = l := by
  rw [content, mkInline_size l h]
  have := range_map_eq_take (peek σ (mkInline l)) l l.length (Nat.le_refl _)
    (fun j hj => by
      rw [peek_inline _ _ rfl, inlRead, if_neg (by omega)]
      rfl)
  rw [this, List.take_length]

/-- Writing the size bitfield directly, as `xs_concat` does. -/
theorem xs_size_setField (y : Xs) (n : Nat) (hp : y.isPtr = true) (h : n < 2 ^ 54) :
    xs_size { y with sizeField := n % 2 ^ 54 } = n := by
  simp only [xs_size, hp, if_true]
  exact Nat.mod_eq_of_lt h

/-- C1 (amended): for every well-formed target whose buffer is not shared
(shared count at most 1, so the copy-on-write check performs no copy),
well-formed prefix and suffix values not aliasing the target's buffer, and
a combined length within the representable bound `MAX_STR_LEN`,
`xs_concat` succeeds and leaves the target holding
`prefix ++ old target ++ suffix` with length the sum of the three lengths.
With empty prefix and suffix this specializes to: content and length are
unchanged. -/
theorem C1_thm (σ : Store) (x p s : Xs) (hx : WF σ x)
    (hp : WF σ p) (hs : WF σ s) (hun : unshared σ x)
    (_ha1 : x.isPtr = true → p.isPtr = true → p.ptr ≠ x.ptr)
    (_ha2 : x.isPtr = true → s.isPtr = true → s.ptr ≠ x.ptr)
    (htot : xs_size x + xs_size p + xs_size s < 2 ^ 54) :
    ∃ σ' x', xs_concat σ x p s = some (σ', x') ∧
      content σ' x' = content σ p ++ content σ x ++ content σ s ∧
      xs_size x' = xs_size p + xs_size x + xs_size s := by
  have hcow := cow_unshared σ x hx hun
  have hpre := readList_content σ p hp
  have hsuf := readList_content_term σ s hs
  have hold := readList_content σ x hx
  have hAl := content_length σ p
  have hBl := content_length σ x
  have hCl := content_length σ s
  set A := content σ p with hA
  set B := content σ x with hB
  set C := content σ s with hC
  set tot := xs_size x + xs_size p + xs_size s with htotdef
  have hlen : (A ++ B ++ (C ++ [0])).length = tot + 1 := by
    simp only [List.length_append, List.length_cons, List.length_nil, hAl, hBl, hCl]
    omega
  have hABC : A.length + B.length + C.length = tot := by
    rw [hAl, hBl, hCl]; omega
  have hgetD : ∀ j, j < tot → (A ++ B ++ (C ++ [0])).getD j 0 =
      ((A ++ B ++ C) ++ [0]).getD j 0 := by
    intro j _
    have : A ++ B ++ (C ++ [0]) = (A ++ B ++ C) ++ [0] := by simp
    rw [this]
  have htake : (A ++ B ++ (C ++ [0])).take tot = A ++ B ++ C := by
    rw [← hABC]
    exact concat_take A B C
  simp only [xs_concat]
  simp only [hcow, hpre, hsuf]
  cases hxp : x.isPtr with
  | true =>
    obtain ⟨b, hb⟩ := hx.live hxp
    have hext : b.extent = 2 ^ 60 := hx.extentOk b hb hxp
    have hcond : xs_size x + xs_size p + xs_size s ≤ xs_capacity x := by
      simp only [xs_capacity, hxp, if_true]
      rw [hx.cap60 hxp]
      omega
    rw [if_pos hcond]
    simp only [hold]
    simp only [writeList_heap σ x (A ++ B ++ (C ++ [0])) b hxp hb (by rw [hext, hlen]; omega)]
    rw [if_pos hxp]
    refine ⟨_, _, rfl, ?_, ?_⟩
    · have hsz := xs_size_setField x (xs_size x + xs_size p + xs_size s) hxp htot
      rw [content_heap_take
        (σ.set x.ptr (bufWriteList b 0 (A ++ B ++ (C ++ [0]))))
        { x with sizeField := (xs_size x + xs_size p + xs_size s) % 2 ^ 54 }
        (A ++ B ++ (C ++ [0])) (bufWriteList b 0 (A ++ B ++ (C ++ [0])))
        hxp (Store.set_self σ x.ptr _) (by rw [hsz, hlen]; omega) ?_]
      · rw [hsz]
        exact htake
      · intro j hj
        rw [hsz] at hj
        rw [bufWriteList_mem, if_pos ⟨Nat.zero_le _, by omega⟩, Nat.sub_zero]
    · rw [xs_size_setField x (xs_size x + xs_size p + xs_size s) hxp htot]
      omega
  | false =>
    have hcap : xs_capacity x = 15 := by simp [xs_capacity, hxp]
    by_cases hle : xs_size x + xs_size p + xs_size s ≤ 15
    · rw [if_pos (by rw [hcap]; exact hle)]
      simp only [hold]
      have hlast : 15 < (A ++ B ++ (C ++ [0])).length → (A ++ B ++ (C ++ [0])).getD 15 0 = 0 := by
        intro h15
        rw [hlen] at h15
        have htot15 : tot = 15 := by omega
        have hl3 : (A ++ B ++ C).length = 15 := by
          simp only [List.length_append, hAl, hBl, hCl]
          omega
        have hsplit : A ++ B ++ (C ++ [0]) = (A ++ B ++ C) ++ [0] := by simp
        rw [hsplit, List.getD_append_right _ _ _ _ (by rw [hl3])]
        rw [hl3]
        simp
      obtain ⟨y', hw, hyp', hdata⟩ :=
        writeList_inline16 σ x (A ++ B ++ (C ++ [0])) hxp (by rw [hlen]; omega) hlast
      simp only [hw]
      simp only [hyp', Bool.false_eq_true, if_false]
      have hsz : xs_size (setSpaceLeft y'
          ((15 + 2 ^ 64 - (xs_size x + xs_size p + xs_size s) % 2 ^ 64) % 2 ^ 64)) = tot := by
        rw [← htotdef]
        simp only [xs_size, setSpaceLeft_isPtr, hyp', Bool.false_eq_true, if_false,
          spaceLeft_setSpaceLeft]
        rw [concat_inline_size _ (by omega)]
        omega
      refine ⟨_, _, rfl, ?_, ?_⟩
      · rw [content_inline_take σ
          (setSpaceLeft y' ((15 + 2 ^ 64 - (xs_size x + xs_size p + xs_size s) % 2 ^ 64) % 2 ^ 64))
          (A ++ B ++ (C ++ [0]))
          (by rw [setSpaceLeft_isPtr]; exact hyp') (by rw [hsz]; omega)
          (by rw [hsz, hlen]; omega) ?_]
        · rw [hsz]
          exact htake
        · intro j hj
          rw [hsz] at hj
          rw [setSpaceLeft_data, hdata j (by omega), if_pos (by rw [hlen]; omega)]
      · rw [hsz, htotdef]
        omega
    · rw [if_neg (by rw [hcap]; exact hle)]
      obtain ⟨σg, t, hg, htp, htptr, htcap, htsz, _hgnext, ⟨bb, hbb, hbbext⟩, _hother⟩ :=
        grow_empty σ (xs_size x + xs_size p + xs_size s) (by omega)
      simp only [hg]
      have hrd : readList σg x 0 (xs_size x) = some B := by
        rw [readList_some σg x 0 _ 16 (by simp [dataExtent, hxp])
          (by have := xs_size_inline_le x hxp; omega)]
        congr 1
        rw [hB]
        simp only [content]
        exact List.map_congr_left fun j _ => by
          rw [Nat.zero_add, peek_inline _ _ hxp, peek_inline _ _ hxp]
      simp only [hrd]
      have hbt : σg.bufs t.ptr = some bb := by rw [htptr]; exact hbb
      simp only [writeList_heap σg t (A ++ B ++ (C ++ [0])) bb htp hbt
        (by rw [hbbext, hlen]; omega)]
      have hfree : ∀ σ0, xs_free σ0 x = some (σ0, xs_literal_empty) :=
        fun σ0 => xs_free_inline σ0 x hxp
      simp only [hfree]
      refine ⟨_, _, rfl, ?_, ?_⟩
      · have hsz := xs_size_setField t (xs_size x + xs_size p + xs_size s) htp htot
        rw [content_heap_take
          (σg.set t.ptr (bufWriteList bb 0 (A ++ B ++ (C ++ [0]))))
          { t with sizeField := (xs_size x + xs_size p + xs_size s) % 2 ^ 54 }
          (A ++ B ++ (C ++ [0])) (bufWriteList bb 0 (A ++ B ++ (C ++ [0])))
          htp (Store.set_self σg t.ptr _) (by rw [hsz, hlen]; omega) ?_]
        · rw [hsz]
          exact htake
        · intro j hj
          rw [hsz] at hj
          rw [bufWriteList_mem, if_pos ⟨Nat.zero_le _, by omega⟩, Nat.sub_zero]
      · rw [xs_size_setField t (xs_size x + xs_size p + xs_size s) htp htot]
        omega

/-- Witness for C1 at concrete inline values: target "hi", prefix "a",
suffix "b". -/
theorem C1_wit :
    ∃ σ' x',
      xs_concat emptyStore (mkInline [104, 105]) (mkInline [97]) (mkInline [98]) =
        some (σ', x') ∧
      content σ' x' = content emptyStore (mkInline [97]) ++
        content emptyStore (mkInline [104, 105]) ++ content emptyStore (mkInline [98]) ∧
      xs_size x' = xs_size (mkInline [97]) + xs_size (mkInline [104, 105]) +
        xs_size (mkInline [98]) :=
  C1_thm emptyStore (mkInline [104, 105]) (mkInline [97]) (mkInline [98])
    (mkInline_WF _ (by norm_num)) (mkInline_WF _ (by norm_num))
    (mkInline_WF _ (by norm_num)) (mkInline_unshared _ _)
    (fun h _ => by cases h) (fun h _ => by cases h) (by decide)

/-- C2 (code bug): build a Large value from the 256-byte source
`'b'` followed by 255 `'a'`, trim with set {'a'} (leaving length 1, still
in the Large representation), then copy it.  `xs_cpy` branches on the
length (1), not on the representation: the copy shares the buffer pointer
-- both values are Large and reference the same buffer -- but the shared
count stays 1 instead of being incremented, violating the claimed
copy behaviour (and the count-equals-referents invariant: releasing both
values double-frees). -/
theorem C2_thm :
    (match xs_new emptyStore xs_literal_empty (98 :: List.replicate 255 97) with
      | some (σ, x) =>
        match xs_trim σ x [97] with
        | some (σ₁, x₁) =>
          (xs_cpy σ₁ xs_literal_empty x₁).map (fun r =>
            (x₁.isLarge, xs_size x₁, r.2.isLarge, decide (r.2.ptr = x₁.ptr),
             (r.1.bufs x₁.ptr).map Buf.refcnt))
        | none => none
      | none => none) = some (true, 1, true, true, some 1) := by
  set_option maxRecDepth 20000 in rfl


/-- C6 (amended): `xs_trim` is idempotent whenever the first application
has a defined result on a well-formed value: trimming the result again
returns the same store and value -- hence the same content and length. -/
theorem C6_thm (σ : Store) (x : Xs) (ts : List Byte) (σ' : Store) (x' : Xs)
    (hWF : WF σ x) (h : xs_trim σ x ts = some (σ', x')) :
    xs_trim σ' x' ts = some (σ', x') := by
  by_cases hemp : (ts.takeWhile (fun b => b ≠ 0)).isEmpty
  · simp only [xs_trim, if_pos hemp]
  · have hform := h
    simp only [xs_trim] at hform
    rw [if_neg hemp] at hform
    rcases hcow : xs_cow_lazy_copy σ x with _ | ⟨σ₁, x₁, c⟩
    · simp only [hcow] at hform
      exact Option.noConfusion hform
    · simp only [hcow] at hform
      have hTr : Trimmed σ' x' (ts.takeWhile (fun b => b ≠ 0)) := by
        rcases cow_of_WF σ x σ₁ x₁ c hWF hcow with ⟨hσe, hxe, hun⟩ |
          ⟨b, hb, hr, hL, hpx, hσ₁, hx₁p, hx₁L, hrest⟩
        · subst hσe hxe
          cases hpq : x₁.isPtr with
          | false =>
            have hLf : x₁.isLarge = false := by
              cases hLq : x₁.isLarge
              · rfl
              · exact absurd (hWF.flags hLq) (by rw [hpq]; exact Bool.false_ne_true)
            exact (trimTail_inline_trimmed σ₁ x₁ _ σ' x' hpq hLf hform).2.1
          | true =>
            exact (trimTail_heap_trimmed σ₁ x₁ _ σ' x' hWF hun hpq hform).1
        · exact (trimTail_inline_trimmed σ₁ x₁ _ σ' x' hx₁p hx₁L hform).2.1
      exact trim_fixed σ' x' ts hTr

/-- Witness for C6: trimming the inline value " h" with the set
{' '} succeeds, and trimming the result again returns it unchanged. -/
theorem C6_wit :
    ∃ σ' x', xs_trim emptyStore (mkInline [32, 104]) [32] = some (σ', x') ∧
      xs_trim σ' x' [32] = some (σ', x') := by
  rcases hev : xs_trim emptyStore (mkInline [32, 104]) [32] with _ | ⟨σ', x'⟩
  · have hs : (xs_trim emptyStore (mkInline [32, 104]) [32]).isSome = true := rfl
    rw [hev] at hs
    exact Bool.noConfusion hs
  · exact ⟨σ', x', rfl, C6_thm emptyStore (mkInline [32, 104]) [32] σ' x'
      (mkInline_WF _ (by norm_num)) hev⟩

/-- C9 (amended): for a well-formed value that does not share its
buffer, a defined `xs_trim` never changes the value's capacity or its
backing storage: `xs_capacity` is preserved, the representation flag and
pointer field are kept, a heap value keeps its capacity field, and the
buffer at the value's pointer survives with its shared count and extent
(only content bytes and the stored length change). -/
theorem C9_thm (σ : Store) (x : Xs) (ts : List Byte) (σ' : Store) (x' : Xs)
    (hWF : WF σ x) (hun : unshared σ x) (h : xs_trim σ x ts = some (σ', x')) :
    xs_capacity x' = xs_capacity x ∧ x'.isPtr = x.isPtr ∧ x'.ptr = x.ptr ∧
      (x.isPtr = true → x'.capBits = x.capBits) ∧
      (∀ b, σ.bufs x.ptr = some b →
        ∃ b', σ'.bufs x.ptr = some b' ∧ b'.refcnt = b.refcnt ∧
          b'.extent = b.extent) := by
  by_cases hemp : (ts.takeWhile (fun b => b ≠ 0)).isEmpty
  · simp only [xs_trim, if_pos hemp] at h
    have h' := Option.some.inj h
    have hσ : σ = σ' := congrArg Prod.fst h'
    have hx : x = x' := congrArg Prod.snd h'
    subst hσ hx
    exact ⟨rfl, rfl, rfl, fun _ => rfl, fun b hb => ⟨b, hb, rfl, rfl⟩⟩
  · have hform := h
    simp only [xs_trim] at hform
    rw [if_neg hemp] at hform
    simp only [cow_unshared σ x hWF hun] at hform
    cases hpq : x.isPtr with
    | false =>
      have hLf : x.isLarge = false := by
        cases hLq : x.isLarge
        · rfl
        · exact absurd (hWF.flags hLq) (by rw [hpq]; exact Bool.false_ne_true)
      obtain ⟨hσe, _, hp', _, hptr'⟩ :=
        trimTail_inline_trimmed σ x _ σ' x' hpq hLf hform
      subst hσe
      refine ⟨by simp [xs_capacity, hp', hpq], by rw [hp'], hptr', ?_, ?_⟩
      · intro hc
        exact Bool.noConfusion hc
      · intro b hb
        exact ⟨b, hb, rfl, rfl⟩
    | true =>
      obtain ⟨_, hp', hL', hptr', hcb, hbuf⟩ :=
        trimTail_heap_trimmed σ x _ σ' x' hWF hun hpq hform
      refine ⟨?_, by rw [hp'], hptr', fun _ => hcb, hbuf⟩
      simp [xs_capacity, hp', hpq, hcb]

/-- Witness for C9: trimming the unshared 300-byte Large fixture with the
disjoint set {'n'} succeeds; the capacity, representation flag and pointer
are kept, the capacity field is kept, and the buffer at the value's
pointer survives with its shared count and extent. -/
theorem C9_wit :
    ∃ σ' x', xs_trim soleStore soleXs [110] = some (σ', x') ∧
      (xs_capacity x' = xs_capacity soleXs ∧ x'.isPtr = soleXs.isPtr ∧
       x'.ptr = soleXs.ptr ∧
       (soleXs.isPtr = true → x'.capBits = soleXs.capBits) ∧
       (∀ b, soleStore.bufs soleXs.ptr = some b →
         ∃ b', σ'.bufs soleXs.ptr = some b' ∧ b'.refcnt = b.refcnt ∧
           b'.extent = b.extent)) := by
  rcases hev : xs_trim soleStore soleXs [110] with _ | ⟨σ', x'⟩
  · have hs : (xs_trim soleStore soleXs [110]).isSome = true := by
      set_option maxRecDepth 20000 in rfl
    rw [hev] at hs
    exact Bool.noConfusion hs
  · exact ⟨σ', x', rfl, C9_thm soleStore soleXs [110] σ' x'
      soleWF soleUnshared hev⟩

/-- C4: each public operation of the library -- construction, copy,
release, grow, concat and trim -- leaves a value whose capacity covers
its logical length (`lenInv`), under well-formedness of the inputs the
operation reads (and, for copy and grow, the invariant itself on the
input value). -/
theorem C4_thm :
    (∀ σ x p σ' x', xs_new σ x p = some (σ', x') → lenInv x') ∧
    (∀ σ dest src σ' d', lenInv src → xs_cpy σ dest src = some (σ', d') → lenInv d') ∧
    (∀ σ x σ' x', xs_free σ x = some (σ', x') → lenInv x') ∧
    (∀ σ x len σ' x', lenInv x → xs_grow σ x len = some (σ', x') → lenInv x') ∧
    (∀ σ x preV sufV σ' x', WF σ x → WF σ sufV →
      xs_concat σ x preV sufV = some (σ', x') → lenInv x') ∧
    (∀ σ x ts σ' x', WF σ x → xs_trim σ x ts = some (σ', x') → lenInv x') :=
  ⟨fun σ x p σ' x' h => lenInv_new σ x p σ' x' h,
   fun σ dest src σ' d' hs h => lenInv_cpy σ dest src σ' d' hs h,
   fun σ x σ' x' h => lenInv_free σ x σ' x' h,
   fun σ x len σ' x' hx h => lenInv_grow σ x len σ' x' hx h,
   fun σ x preV sufV σ' x' h1 h2 h => lenInv_concat σ x preV sufV σ' x' h1 h2 h,
   fun σ x ts σ' x' hWF h => lenInv_trim σ x ts σ' x' hWF h⟩

/-- Witness for C4: all six operations at concrete inline inputs. -/
theorem C4_wit :
    ∃ σ₁ x₁ σ₂ x₂ σ₃ x₃ σ₄ x₄ σ₅ x₅ σ₆ x₆,
      xs_new emptyStore xs_literal_empty [104] = some (σ₁, x₁) ∧ lenInv x₁ ∧
      xs_cpy emptyStore xs_literal_empty (mkInline [104]) = some (σ₂, x₂) ∧
        lenInv x₂ ∧
      xs_free emptyStore (mkInline [104]) = some (σ₃, x₃) ∧ lenInv x₃ ∧
      xs_grow emptyStore (mkInline [104]) 20 = some (σ₄, x₄) ∧ lenInv x₄ ∧
      xs_concat emptyStore (mkInline [104]) (mkInline [97]) (mkInline [98]) =
        some (σ₅, x₅) ∧ lenInv x₅ ∧
      xs_trim emptyStore (mkInline [32, 104]) [32] = some (σ₆, x₆) ∧ lenInv x₆ := by
  rcases h1 : xs_new emptyStore xs_literal_empty [104] with _ | ⟨σ₁, x₁⟩
  · have hs : (xs_new emptyStore xs_literal_empty [104]).isSome = true := rfl
    rw [h1] at hs
    exact Bool.noConfusion hs
  rcases h2 : xs_cpy emptyStore xs_literal_empty (mkInline [104]) with _ | ⟨σ₂, x₂⟩
  · have hs : (xs_cpy emptyStore xs_literal_empty (mkInline [104])).isSome = true := rfl
    rw [h2] at hs
    exact Bool.noConfusion hs
  rcases h3 : xs_free emptyStore (mkInline [104]) with _ | ⟨σ₃, x₃⟩
  · have hs : (xs_free emptyStore (mkInline [104])).isSome = true := rfl
    rw [h3] at hs
    exact Bool.noConfusion hs
  rcases h4 : xs_grow emptyStore (mkInline [104]) 20 with _ | ⟨σ₄, x₄⟩
  · have hs : (xs_grow emptyStore (mkInline [104]) 20).isSome = true := rfl
    rw [h4] at hs
    exact Bool.noConfusion hs
  rcases h5 : xs_concat emptyStore (mkInline [104]) (mkInline [97]) (mkInline [98])
    with _ | ⟨σ₅, x₅⟩
  · have hs : (xs_concat emptyStore (mkInline [104]) (mkInline [97])
        (mkInline [98])).isSome = true := rfl
    rw [h5] at hs
    exact Bool.noConfusion hs
  rcases h6 : xs_trim emptyStore (mkInline [32, 104]) [32] with _ | ⟨σ₆, x₆⟩
  · have hs : (xs_trim emptyStore (mkInline [32, 104]) [32]).isSome = true := rfl
    rw [h6] at hs
    exact Bool.noConfusion hs
  exact ⟨σ₁, x₁, σ₂, x₂, σ₃, x₃, σ₄, x₄, σ₅, x₅, σ₆, x₆,
    rfl, C4_thm.1 _ _ _ _ _ h1,
    rfl, C4_thm.2.1 _ _ _ _ _ (by unfold lenInv; decide) h2,
    rfl, C4_thm.2.2.1 _ _ _ _ h3,
    rfl, C4_thm.2.2.2.1 _ _ _ _ _ (by unfold lenInv; decide) h4,
    rfl, C4_thm.2.2.2.2.1 _ _ _ _ _ _ (mkInline_WF _ (by norm_num))
      (mkInline_WF _ (by norm_num)) h5,
    rfl, C4_thm.2.2.2.2.2 _ _ _ _ _ (mkInline_WF _ (by norm_num)) h6⟩

end XsC
